import Mathlib

set_option maxRecDepth 10000

/-!
Verification of the Montgomery-curve core of a curve25519 library.

The development shallowly embeds two source files:
  - curve25519-dalek/src/montgomery.rs (MontgomeryPoint, ProjectivePoint,
    the Montgomery ladder, Montgomery to Edwards conversion, Elligator2);
  - src/backend/vector/ifma/field.rs (the 4-lane IFMA batched field backend).

Field elements are embedded as natural numbers; every field operation reduces
modulo p = 2^255 - 19.  The serial FieldElement type itself is not part of the
source tree, so its operations are modelled from the specification (decode
reduces mod p after discarding bit 255; encode is canonical; inversion is
exponentiation by p - 2 with invert 0 = 0).  Machine integers in the IFMA
backend are embedded as naturals with explicit reduction mod 2^64.
-/

namespace Curve25519

/-- The field prime p = 2^255 - 19. -/
def p : ℕ := 2 ^ 255 - 19

/-- Modelled from the spec: the Montgomery curve coefficient A = 486662
(named MONTGOMERY_A in the source constants, which are not in the tree). -/
def montA : ℕ := 486662

/-- Modelled from the spec: the negation of the curve coefficient,
MONTGOMERY_A_NEG = -A mod p. -/
def montAneg : ℕ := p - montA

/-- Modelled from the spec: the ladder constant (A+2)/4 (APLUS2_OVER_FOUR). -/
def aplus2Over4 : ℕ := (montA + 2) / 4

/-- Field addition: reduce mod p. -/
def fadd (a b : ℕ) : ℕ := (a + b) % p

/-- Field subtraction: add the complement to p of the reduced subtrahend. -/
def fsub (a b : ℕ) : ℕ := (a + (p - b % p)) % p

/-- Field multiplication mod p. -/
def fmul (a b : ℕ) : ℕ := (a * b) % p

/-- Field squaring mod p. -/
def fsq (a : ℕ) : ℕ := (a * a) % p

/-- Modelled from the spec: FieldElement square2, which returns 2 * a^2. -/
def fsq2 (a : ℕ) : ℕ := (2 * (a * a)) % p

/-- Field negation mod p. -/
def fneg (a : ℕ) : ℕ := (p - a % p) % p

/-- Fuel-driven modular exponentiation by squaring; the fuel bounds the bit
length of the exponent, so 300 units cover every exponent below 2^300. -/
def powModF : ℕ → ℕ → ℕ → ℕ → ℕ
  | 0, _, _, m => 1 % m
  | fuel + 1, b, e, m =>
    if e = 0 then 1 % m
    else
      let r := powModF fuel ((b * b) % m) (e / 2) m
      if e % 2 = 1 then (r * b) % m else r

/-- Modular exponentiation by squaring. -/
def powMod (b e m : ℕ) : ℕ := powModF 300 b e m

/-- Modelled from the spec: FieldElement inversion computes a^(p-2) mod p by a
fixed sequence of squarings and multiplications, with invert 0 = 0. -/
def finv (a : ℕ) : ℕ := powMod a (p - 2) p

/-- A 32-byte string, little-endian at the byte level. -/
def Bytes32 : Type := Fin 32 → ℕ

instance : DecidableEq Bytes32 := by
  unfold Bytes32
  infer_instance

/-- Little-endian value of a 32-byte string. -/
def leVal (b : Bytes32) : ℕ :=
  (List.finRange 32).foldr (fun i acc => b i + 256 * acc) 0

/-- Modelled from the spec: FieldElement decoding accepts any 32-byte string,
discards bit 255 and reduces mod p. -/
def feFromBytes (b : Bytes32) : ℕ := (leVal b % 2 ^ 255) % p

/-- Modelled from the spec: FieldElement encoding emits the unique 32-byte
little-endian representative of the value reduced into the canonical range. -/
def feToBytes (x : ℕ) : Bytes32 := fun i => x % p / 2 ^ (8 * (i : ℕ)) % 256

/-- The all-zero 32-byte string. -/
def zeroBytes : Bytes32 := fun _ => 0

/-- Modelled from the spec: the square-test half of sqrt_ratio_i, the
constant-time predicate deciding whether u/v is a square in the field
(0 counts as a square, matching the predicate used by the source). -/
def isSqRatio (u v : ℕ) : Bool :=
  powMod ((u * finv v) % p) ((p - 1) / 2) p ≠ p - 1

/-! Embedding of montgomery.rs. -/

/-- MontgomeryPoint ct_eq: decode both byte strings as field elements and
compare the decoded values (the source compares canonical encodings of the
decoded field elements, which is the same relation). -/
def montCtEq (a b : Bytes32) : Bool := feFromBytes a == feFromBytes b

/-- MontgomeryPoint PartialEq, defined from ct_eq. -/
def montEq (a b : Bytes32) : Bool := montCtEq a b

/-- Hash for MontgomeryPoint: the canonical encoding obtained by a round trip
through a FieldElement is what gets fed to the hasher, so two points hash
identically exactly when these canonical encodings coincide. -/
def montHashBytes (a : Bytes32) : Bytes32 := feToBytes (feFromBytes a)

/-- ProjectivePoint of montgomery.rs: a (U : W) pair of field elements. -/
structure ProjectivePoint where
  U : ℕ
  W : ℕ
deriving DecidableEq

/-- Identity for ProjectivePoint: (1 : 0). -/
def projIdentity : ProjectivePoint := ⟨1, 0⟩

/-- Subtle conditional select: returns b when the choice is set, else a. -/
def condSelect (a b : ProjectivePoint) (c : Bool) : ProjectivePoint :=
  if c then b else a

/-- Subtle conditional swap, derived from conditional select: swaps the two
points exactly when the choice is set. -/
def condSwap (a b : ProjectivePoint) (c : Bool) : ProjectivePoint × ProjectivePoint :=
  (condSelect a b c, condSelect b a c)

/-- ProjectivePoint as_affine: U * W.invert(), encoded to bytes.  Total: when
W = 0 the inversion yields 0 and the result is the zero u-coordinate. -/
def asAffine (P : ProjectivePoint) : Bytes32 := feToBytes ((P.U * finv P.W) % p)

/-- The differential add-and-double step of montgomery.rs, transcribed from
the t0..t18 sequence; returns the updated (P, Q) pair. -/
def diffAddAndDouble (P Q : ProjectivePoint) (affinePmQ : ℕ) :
    ProjectivePoint × ProjectivePoint :=
  let t0 := fadd P.U P.W
  let t1 := fsub P.U P.W
  let t2 := fadd Q.U Q.W
  let t3 := fsub Q.U Q.W
  let t4 := fsq t0
  let t5 := fsq t1
  let t6 := fsub t4 t5
  let t7 := fmul t0 t3
  let t8 := fmul t1 t2
  let t9 := fadd t7 t8
  let t10 := fsub t7 t8
  let t11 := fsq t9
  let t12 := fsq t10
  let t13 := fmul aplus2Over4 t6
  let t14 := fmul t4 t5
  let t15 := fadd t13 t5
  let t16 := fmul t6 t15
  let t17 := fmul affinePmQ t12
  let t18 := t11
  (⟨t14, t16⟩, ⟨t18, t17⟩)

/-- One iteration of the mul_bits_be loop: state is (x0, x1, prev_bit). -/
def ladderStep (affineU : ℕ) (st : ProjectivePoint × ProjectivePoint × Bool)
    (curBit : Bool) : ProjectivePoint × ProjectivePoint × Bool :=
  let choice := xor st.2.2 curBit
  let sw := condSwap st.1 st.2.1 choice
  let dd := diffAddAndDouble sw.1 sw.2 affineU
  (dd.1, dd.2, curBit)

/-- MontgomeryPoint mul_bits_be: the Montgomery ladder over a most-significant
bit first list of bits, transcribed from the source loop. -/
def mulBitsBe (b : Bytes32) (bits : List Bool) : Bytes32 :=
  let affineU := feFromBytes b
  let x0 := projIdentity
  let x1 : ProjectivePoint := ⟨affineU, 1⟩
  let st := bits.foldl (ladderStep affineU) (x0, x1, false)
  let fin := condSwap st.1 st.2.1 st.2.2
  asAffine fin.1

/-- Minimal view of a decompressed Edwards point: the Edwards y coordinate and
the sign bit read from the top bit of the encoding. -/
structure EdwardsPointM where
  y : ℕ
  xIsNeg : Bool
deriving DecidableEq

/-- Modelled from the spec: the Edwards curve constant d = -121665/121666,
used by the external Edwards decompression collaborator. -/
def edD : ℕ := fneg (fmul 121665 (finv 121666))

/-- Modelled from the spec: Edwards decompression of a 32-byte encoding.  The
candidate x^2 is the ratio (y^2 - 1)/(d y^2 + 1); decompression fails exactly
when that ratio is a non-square. -/
def decompress (b : Bytes32) : Option EdwardsPointM :=
  let y := feFromBytes b
  if isSqRatio (fsub (fsq y) 1) (fadd (fmul edD (fsq y)) 1) then
    some ⟨y, b 31 / 128 % 2 == 1⟩
  else
    none

/-- Write the sign bit into the top bit of byte 31, as the source does with
y_bytes[31] ^= sign << 7 (a u8 shift keeps only the low bit of sign). -/
def setSignBit (b : Bytes32) (sign : ℕ) : Bytes32 :=
  fun i => if (i : ℕ) = 31 then Nat.xor (b 31) (sign % 2 * 128) else b i

/-- MontgomeryPoint to_edwards: reject u = -1, then apply the birational map
y = (u-1)/(u+1), write the sign bit, and delegate to Edwards decompression. -/
def toEdwards (b : Bytes32) (sign : ℕ) : Option EdwardsPointM :=
  let u := feFromBytes b
  if u = p - 1 then none
  else
    let y := fmul (fsub u 1) (finv (fadd u 1))
    decompress (setSignBit (feToBytes y) sign)

/-- Elligator2 encoding of a field element to a Montgomery point, transcribed
from the source: d = -A/(1+2r^2), eps = d*(d^2 + A*d + 1), then a constant
time select of 0 or A and a conditional negation keyed on the square test. -/
def elligatorEncode (r0 : ℕ) : Bytes32 :=
  let d1 := fadd 1 (fsq2 r0)
  let d := fmul montAneg (finv d1)
  let dsq := fsq d
  let au := fmul montA d
  let inner := fadd (fadd dsq au) 1
  let eps := fmul d inner
  let epsIsSq := isSqRatio eps 1
  let atemp := if epsIsSq then 0 else montA
  let u := fadd d atemp
  let u2 := if ! epsIsSq then fneg u else u
  feToBytes u2

/-! Specification-shaped restatements, used to compare the transcribed source
against the wording of the specification. -/

/-- The ladder of the specification, written as direct recursion over the bit
list: initialize (x0, x1) = (identity, (u : 1)); for each bit b, swap keyed on
prev XOR b, then differential add-and-double; after the loop one final swap
keyed on the last bit seen. -/
def ladderSpec (u : ℕ) : List Bool → Bool → ProjectivePoint → ProjectivePoint → ProjectivePoint
  | [], prev, x0, x1 => (condSwap x0 x1 prev).1
  | b :: rest, prev, x0, x1 =>
    let s := xor prev b
    let sw := condSwap x0 x1 s
    let dd := diffAddAndDouble sw.1 sw.2 u
    ladderSpec u rest b dd.1 dd.2

/-- The specification's description of mul_bits_be: run the ladder from the
initial state and return the affine value of x0. -/
def mulBitsSpec (b : Bytes32) (bits : List Bool) : Bytes32 :=
  asAffine (ladderSpec (feFromBytes b) bits false projIdentity ⟨feFromBytes b, 1⟩)

/-- The u-value selected by the specification's description of Elligator2:
d = -A/(1+2r^2), eps = d^3 + A d^2 + d, then u = d when eps is a square and
u = -d-A otherwise. -/
def elligatorSpecU (r : ℕ) : ℕ :=
  let d := fmul montAneg (finv ((1 + 2 * r ^ 2) % p))
  let eps := (d ^ 3 + montA * d ^ 2 + d) % p
  if isSqRatio eps 1 then d else fneg ((d + montA) % p)

/-! Helper lemmas. -/

theorem p_pos : 0 < p := by decide

theorem powModF_eq (fuel : ℕ) : ∀ b e m : ℕ, 0 < m → e < 2 ^ fuel →
    powModF fuel b e m = b ^ e % m := by
  induction fuel with
  | zero =>
    intro b e m _ he
    have h1 : (2 : ℕ) ^ 0 = 1 := pow_zero 2
    have he0 : e = 0 := by omega
    subst he0
    simp [powModF]
  | succ f ih =>
    intro b e m hm he
    by_cases h0 : e = 0
    · simp [powModF, h0]
    · have hp2 : (2 : ℕ) ^ (f + 1) = 2 ^ f * 2 := by rw [Nat.pow_succ]
      have hdiv : e / 2 < 2 ^ f := by omega
      have hrec := ih ((b * b) % m) (e / 2) m hm hdiv
      have hbb : (b * b) ^ (e / 2) % m = b ^ (2 * (e / 2)) % m := by
        rw [mul_comm 2 (e / 2), pow_mul, pow_two, mul_pow]
      simp only [powModF]
      rw [if_neg h0, hrec, ← Nat.pow_mod, hbb]
      rcases Nat.mod_two_eq_zero_or_one e with h2 | h2
      · rw [if_neg (by omega), show 2 * (e / 2) = e by omega]
      · rw [if_pos h2, Nat.mod_mul_mod, ← pow_succ, show 2 * (e / 2) + 1 = e by omega]

theorem powMod_eq (b e m : ℕ) (hm : 0 < m) (he : e < 2 ^ 300) :
    powMod b e m = b ^ e % m :=
  powModF_eq 300 b e m hm he

theorem p_eq_lit :
    p = 57896044618658097711785492504343953926634992332820282019728792003956564819949 := by
  norm_num [p]

theorem finv_eq (a : ℕ) : finv a = a ^ (p - 2) % p := by
  have h255 : p < 2 ^ 255 := Nat.sub_lt (by positivity) (by norm_num)
  have h300 : (2 : ℕ) ^ 255 ≤ 2 ^ 300 := Nat.pow_le_pow_right (by norm_num) (by norm_num)
  exact powMod_eq a (p - 2) p p_pos (by omega)

theorem finv_zero : finv 0 = 0 := by decide

theorem feToBytes_zero : feToBytes 0 = zeroBytes := by
  funext i
  simp [feToBytes, zeroBytes, Nat.zero_mod, Nat.zero_div]

theorem cast_mod_p (a : ℕ) : ((a % p : ℕ) : ZMod p) = (a : ZMod p) :=
  ZMod.natCast_mod a p

theorem cast_fadd (a b : ℕ) : ((fadd a b : ℕ) : ZMod p) = (a : ZMod p) + b := by
  rw [fadd, cast_mod_p, Nat.cast_add]

theorem cast_fsub (a b : ℕ) : ((fsub a b : ℕ) : ZMod p) = (a : ZMod p) - b := by
  rw [fsub, cast_mod_p, Nat.cast_add, Nat.cast_sub (Nat.le_of_lt (Nat.mod_lt b p_pos)),
    cast_mod_p, ZMod.natCast_self]
  ring

theorem cast_fmul (a b : ℕ) : ((fmul a b : ℕ) : ZMod p) = (a : ZMod p) * b := by
  rw [fmul, cast_mod_p, Nat.cast_mul]

theorem cast_fsq (a : ℕ) : ((fsq a : ℕ) : ZMod p) = (a : ZMod p) * a := by
  rw [fsq, cast_mod_p, Nat.cast_mul]

theorem cast_fsq2 (a : ℕ) : ((fsq2 a : ℕ) : ZMod p) = 2 * ((a : ZMod p) * a) := by
  rw [fsq2, cast_mod_p, Nat.cast_mul, Nat.cast_mul, Nat.cast_ofNat]

theorem cast_fneg (a : ℕ) : ((fneg a : ℕ) : ZMod p) = -(a : ZMod p) := by
  rw [fneg, cast_mod_p, Nat.cast_sub (Nat.le_of_lt (Nat.mod_lt a p_pos)),
    cast_mod_p, ZMod.natCast_self]
  ring

theorem fmul_lt (a b : ℕ) : fmul a b < p := Nat.mod_lt _ p_pos

theorem fadd_lt (a b : ℕ) : fadd a b < p := Nat.mod_lt _ p_pos

/-- Residues mod p agree exactly when the ZMod p casts agree. -/
theorem modp_eq_iff (a b : ℕ) : a % p = b % p ↔ ((a : ℕ) : ZMod p) = (b : ZMod p) :=
  (ZMod.natCast_eq_natCast_iff' a b p).symm

/-- The ladder loop of the source agrees with the specification's recursion,
for every starting state. -/
theorem foldl_ladder_eq_spec (u : ℕ) (bits : List Bool) :
    ∀ x0 x1 : ProjectivePoint, ∀ prev : Bool,
      (fun st : ProjectivePoint × ProjectivePoint × Bool =>
        (condSwap st.1 st.2.1 st.2.2).1) (bits.foldl (ladderStep u) (x0, x1, prev)) =
      ladderSpec u bits prev x0 x1 := by
  induction bits with
  | nil => intro x0 x1 prev; rfl
  | cons b rest ih =>
    intro x0 x1 prev
    simp only [List.foldl_cons, ladderSpec]
    exact ih _ _ b

theorem asAffine_identity : asAffine projIdentity = zeroBytes := by
  show feToBytes ((1 * finv 0) % p) = zeroBytes
  rw [finv_zero, Nat.mul_zero, Nat.zero_mod, feToBytes_zero]

/-! Embedding of the IFMA backend, src/backend/vector/ifma/field.rs.  The
four lanes are independent, so the u64x4 vector operations are embedded
componentwise; machine words are naturals reduced mod 2^64 wherever the
hardware wraps. -/

/-- Low 52 bits of the product of the low 52 bits of the operands, as computed
by the vpmadd52luq primitive. -/
def loMul (x y : ℕ) : ℕ := x % 2 ^ 52 * (y % 2 ^ 52) % 2 ^ 52

/-- High 52 bits of the 104-bit product of the low 52 bits of the operands, as
computed by the vpmadd52huq primitive. -/
def hiMul (x y : ℕ) : ℕ := x % 2 ^ 52 * (y % 2 ^ 52) / 2 ^ 52

/-- madd52lo: accumulate the low product half into a wrapping 64-bit lane. -/
def madd52lo (z x y : ℕ) : ℕ := (z + loMul x y) % 2 ^ 64

/-- madd52hi: accumulate the high product half into a wrapping 64-bit lane. -/
def madd52hi (z x y : ℕ) : ℕ := (z + hiMul x y) % 2 ^ 64

/-- Wrapping 64-bit lane addition of u64x4. -/
def wadd (a b : ℕ) : ℕ := (a + b) % 2 ^ 64

/-- FieldElement51 of the serial u64 backend: five 51-bit limbs (the limbs are
just carried; no operation of the embedded code constrains them). -/
structure FieldElement51 where
  limbs : Fin 5 → ℕ
deriving DecidableEq

/-- A vector of four field elements in radix 2^51 with unreduced coefficients;
limb i of lane j is limbs i j. -/
structure F51x4Unreduced where
  limbs : Fin 5 → Fin 4 → ℕ
deriving DecidableEq

/-- A vector of four field elements in radix 2^51 with reduced coefficients. -/
structure F51x4Reduced where
  limbs : Fin 5 → Fin 4 → ℕ
deriving DecidableEq

/-- F51x4Unreduced::new packs four field elements lane-wise. -/
def F51x4Unreduced.pack (x0 x1 x2 x3 : FieldElement51) : F51x4Unreduced :=
  ⟨fun i j =>
    match j with
    | 0 => x0.limbs i
    | 1 => x1.limbs i
    | 2 => x2.limbs i
    | 3 => x3.limbs i⟩

/-- F51x4Unreduced::split unpacks the four lanes. -/
def F51x4Unreduced.split (v : F51x4Unreduced) :
    FieldElement51 × FieldElement51 × FieldElement51 × FieldElement51 :=
  (⟨fun i => v.limbs i 0⟩, ⟨fun i => v.limbs i 1⟩,
    ⟨fun i => v.limbs i 2⟩, ⟨fun i => v.limbs i 3⟩)

/-- From F51x4Reduced for F51x4Unreduced: a free reinterpretation. -/
def F51x4Reduced.toUnreduced (x : F51x4Reduced) : F51x4Unreduced := ⟨x.limbs⟩

/-- One lane of the From F51x4Unreduced for F51x4Reduced conversion: mask each
limb to 51 bits, propagate the carries up one position, and fold the top carry
back into limb 0 multiplied by 19 through a vpmadd52luq. -/
def reduceLane (x : Fin 5 → ℕ) : Fin 5 → ℕ :=
  let mask := 2 ^ 51 - 1
  let c0 := x 0 >>> 51
  let c1 := x 1 >>> 51
  let c2 := x 2 >>> 51
  let c3 := x 3 >>> 51
  let c4 := x 4 >>> 51
  fun i =>
    match i with
    | 0 => madd52lo (x 0 &&& mask) c4 19
    | 1 => wadd (x 1 &&& mask) c0
    | 2 => wadd (x 2 &&& mask) c1
    | 3 => wadd (x 3 &&& mask) c2
    | 4 => wadd (x 4 &&& mask) c3

/-- From F51x4Unreduced for F51x4Reduced, lane-parallel carry propagation. -/
def F51x4Unreduced.toReduced (x : F51x4Unreduced) : F51x4Reduced :=
  ⟨fun i j => reduceLane (fun k => x.limbs k j) i⟩

/-- Field value of one lane of a radix 2^51 limb vector. -/
def laneVal (L : Fin 5 → ℕ) : ℕ :=
  L 0 + 2 ^ 51 * L 1 + 2 ^ 102 * L 2 + 2 ^ 153 * L 3 + 2 ^ 204 * L 4

/-- Limbs of lane j of a 4-lane batch. -/
def lane (x : Fin 5 → Fin 4 → ℕ) (j : Fin 4) : Fin 5 → ℕ := fun i => x i j

theorem two_pow_255_cast : ((2 ^ 255 : ℕ) : ZMod p) = 19 := by
  have h : (2 ^ 255 : ℕ) = p + 19 := by rw [p_eq_lit]; norm_num
  rw [h, Nat.cast_add, ZMod.natCast_self, zero_add]
  norm_num

/-- Per-lane correctness of the carry-propagation conversion: the value mod p
is preserved and every output limb is below 2^52. -/
theorem reduceLane_correct (x : Fin 5 → ℕ) (hx : ∀ i, x i < 2 ^ 64) :
    laneVal (reduceLane x) ≡ laneVal x [MOD p] ∧ ∀ i, reduceLane x i < 2 ^ 52 := by
  have hb0 := hx 0
  have hb1 := hx 1
  have hb2 := hx 2
  have hb3 := hx 3
  have hb4 := hx 4
  have hmask : ∀ a : ℕ, a &&& (2 ^ 51 - 1) = a % 2 ^ 51 :=
    fun a => Nat.and_pow_two_sub_one_eq_mod a 51
  have h0 : reduceLane x 0 = x 0 % 2 ^ 51 + x 4 / 2 ^ 51 * 19 := by
    show madd52lo (x 0 &&& (2 ^ 51 - 1)) (x 4 >>> 51) 19 = _
    rw [hmask, madd52lo, loMul]
    have hc4 : x 4 >>> 51 = x 4 / 2 ^ 51 := by omega
    rw [hc4]
    have hlt : x 4 / 2 ^ 51 < 2 ^ 13 := by omega
    have e1 : x 4 / 2 ^ 51 % 2 ^ 52 = x 4 / 2 ^ 51 := by omega
    have e2 : (19 : ℕ) % 2 ^ 52 = 19 := by norm_num
    rw [e1, e2]
    have e3 : x 4 / 2 ^ 51 * 19 % 2 ^ 52 = x 4 / 2 ^ 51 * 19 := by omega
    rw [e3]
    omega
  have h1 : reduceLane x 1 = x 1 % 2 ^ 51 + x 0 / 2 ^ 51 := by
    show wadd (x 1 &&& (2 ^ 51 - 1)) (x 0 >>> 51) = _
    rw [hmask, wadd]
    omega
  have h2 : reduceLane x 2 = x 2 % 2 ^ 51 + x 1 / 2 ^ 51 := by
    show wadd (x 2 &&& (2 ^ 51 - 1)) (x 1 >>> 51) = _
    rw [hmask, wadd]
    omega
  have h3 : reduceLane x 3 = x 3 % 2 ^ 51 + x 2 / 2 ^ 51 := by
    show wadd (x 3 &&& (2 ^ 51 - 1)) (x 2 >>> 51) = _
    rw [hmask, wadd]
    omega
  have h4 : reduceLane x 4 = x 4 % 2 ^ 51 + x 3 / 2 ^ 51 := by
    show wadd (x 4 &&& (2 ^ 51 - 1)) (x 3 >>> 51) = _
    rw [hmask, wadd]
    omega
  constructor
  · show laneVal (reduceLane x) % p = laneVal x % p
    rw [modp_eq_iff]
    simp only [laneVal, h0, h1, h2, h3, h4]
    have d0 := Nat.div_add_mod (x 0) (2 ^ 51)
    have d1 := Nat.div_add_mod (x 1) (2 ^ 51)
    have d2 := Nat.div_add_mod (x 2) (2 ^ 51)
    have d3 := Nat.div_add_mod (x 3) (2 ^ 51)
    have d4 := Nat.div_add_mod (x 4) (2 ^ 51)
    have c0 := congrArg (fun n : ℕ => (n : ZMod p)) d0
    have c1 := congrArg (fun n : ℕ => (n : ZMod p)) d1
    have c2 := congrArg (fun n : ℕ => (n : ZMod p)) d2
    have c3 := congrArg (fun n : ℕ => (n : ZMod p)) d3
    have c4 := congrArg (fun n : ℕ => (n : ZMod p)) d4
    simp only at c0 c1 c2 c3 c4
    push_cast at c0 c1 c2 c3 c4 ⊢
    have h255 := two_pow_255_cast
    push_cast at h255
    linear_combination c0 + (2 : ZMod p) ^ 51 * c1 + (2 : ZMod p) ^ 102 * c2 +
      (2 : ZMod p) ^ 153 * c3 + (2 : ZMod p) ^ 204 * c4 -
      ((x 4 / 2 ^ 51 : ℕ) : ZMod p) * h255
  · intro i
    fin_cases i
    · show reduceLane x 0 < 2 ^ 52
      rw [h0]
      omega
    · show reduceLane x 1 < 2 ^ 52
      rw [h1]
      omega
    · show reduceLane x 2 < 2 ^ 52
      rw [h2]
      omega
    · show reduceLane x 3 < 2 ^ 52
      rw [h3]
      omega
    · show reduceLane x 4 < 2 ^ 52
      rw [h4]
      omega


theorem loMul_lt (x y : ℕ) : loMul x y < 2 ^ 52 := Nat.mod_lt _ (by norm_num)

theorem hiMul_lt (x y : ℕ) : hiMul x y < 2 ^ 52 := by
  unfold hiMul
  have h1 : x % 2 ^ 52 * (y % 2 ^ 52) < 2 ^ 52 * 2 ^ 52 :=
    Nat.mul_lt_mul_of_lt_of_lt (Nat.mod_lt _ (by norm_num)) (Nat.mod_lt _ (by norm_num))
  exact Nat.div_lt_of_lt_mul h1

/-! Accumulator chains of the Reduced x Reduced multiply of ifma/field.rs,
grouped per accumulator in program order of the wave schedule; the wave
interleaving only reorders updates to distinct accumulators. -/

def Z5loD (X Y : Fin 5 → ℕ) : ℕ :=
  madd52lo (madd52lo (madd52lo (madd52lo 0 (X 4) (Y 1)) (X 3) (Y 2)) (X 2) (Y 3)) (X 1) (Y 4)

def Z5hiD (X Y : Fin 5 → ℕ) : ℕ :=
  madd52hi (madd52hi (madd52hi (madd52hi (madd52hi 0 (X 2) (Y 2)) (X 3) (Y 1)) (X 4) (Y 0)) (X 1) (Y 3)) (X 0) (Y 4)

def Z6loD (X Y : Fin 5 → ℕ) : ℕ :=
  madd52lo (madd52lo (madd52lo 0 (X 4) (Y 2)) (X 3) (Y 3)) (X 2) (Y 4)

def Z6hiD (X Y : Fin 5 → ℕ) : ℕ :=
  madd52hi (madd52hi (madd52hi (madd52hi 0 (X 4) (Y 1)) (X 3) (Y 2)) (X 2) (Y 3)) (X 1) (Y 4)

def Z7loD (X Y : Fin 5 → ℕ) : ℕ :=
  madd52lo (madd52lo 0 (X 4) (Y 3)) (X 3) (Y 4)

def Z7hiD (X Y : Fin 5 → ℕ) : ℕ :=
  madd52hi (madd52hi (madd52hi 0 (X 4) (Y 2)) (X 3) (Y 3)) (X 2) (Y 4)

def Z8loD (X Y : Fin 5 → ℕ) : ℕ :=
  madd52lo 0 (X 4) (Y 4)

def Z8hiD (X Y : Fin 5 → ℕ) : ℕ :=
  madd52hi (madd52hi 0 (X 4) (Y 3)) (X 3) (Y 4)

def Z9hiD (X Y : Fin 5 → ℕ) : ℕ :=
  madd52hi 0 (X 4) (Y 4)

def Z5D (X Y : Fin 5 → ℕ) : ℕ := wadd (wadd (Z5loD X Y) (Z5hiD X Y)) (Z5hiD X Y)

def Z6D (X Y : Fin 5 → ℕ) : ℕ := wadd (wadd (Z6loD X Y) (Z6hiD X Y)) (Z6hiD X Y)

def Z7D (X Y : Fin 5 → ℕ) : ℕ := wadd (wadd (Z7loD X Y) (Z7hiD X Y)) (Z7hiD X Y)

def Z8D (X Y : Fin 5 → ℕ) : ℕ := wadd (wadd (Z8loD X Y) (Z8hiD X Y)) (Z8hiD X Y)

def Z9D (X Y : Fin 5 → ℕ) : ℕ := wadd (Z9hiD X Y) (Z9hiD X Y)

def T0D (X Y : Fin 5 → ℕ) : ℕ := madd52hi 0 19 (Z9D X Y)

def T1D (X Y : Fin 5 → ℕ) : ℕ := madd52lo 0 19 (Z9D X Y >>> 52)

def Z0loD (X Y : Fin 5 → ℕ) : ℕ :=
  madd52lo (madd52lo 0 (X 0) (Y 0)) 19 (Z5D X Y)

def Z0hiD (X Y : Fin 5 → ℕ) : ℕ :=
  madd52lo 0 19 (wadd (T0D X Y) (T1D X Y))

def Z1loD (X Y : Fin 5 → ℕ) : ℕ :=
  madd52lo (madd52lo (madd52lo 0 (X 1) (Y 0)) (X 0) (Y 1)) 19 (Z6D X Y)

def Z1hiD (X Y : Fin 5 → ℕ) : ℕ :=
  madd52hi (madd52lo (madd52hi 0 (X 0) (Y 0)) 19 (Z5D X Y >>> 52)) 19 (Z5D X Y)

def Z2loD (X Y : Fin 5 → ℕ) : ℕ :=
  madd52lo (madd52lo (madd52lo (madd52lo 0 (X 2) (Y 0)) (X 1) (Y 1)) (X 0) (Y 2)) 19 (Z7D X Y)

def Z2hiD (X Y : Fin 5 → ℕ) : ℕ :=
  madd52hi (madd52lo (madd52hi (madd52hi 0 (X 1) (Y 0)) (X 0) (Y 1)) 19 (Z6D X Y >>> 52)) 19 (Z6D X Y)

def Z3loD (X Y : Fin 5 → ℕ) : ℕ :=
  madd52lo (madd52lo (madd52lo (madd52lo (madd52lo 0 (X 3) (Y 0)) (X 2) (Y 1)) (X 1) (Y 2)) (X 0) (Y 3)) 19 (Z8D X Y)

def Z3hiD (X Y : Fin 5 → ℕ) : ℕ :=
  madd52hi (madd52lo (madd52hi (madd52hi (madd52hi 0 (X 2) (Y 0)) (X 1) (Y 1)) (X 0) (Y 2)) 19 (Z7D X Y >>> 52)) 19 (Z7D X Y)

def Z4loD (X Y : Fin 5 → ℕ) : ℕ :=
  madd52lo (madd52lo (madd52lo (madd52lo (madd52lo (madd52lo 0 (X 2) (Y 2)) (X 3) (Y 1)) (X 4) (Y 0)) (X 1) (Y 3)) (X 0) (Y 4)) 19 (Z9D X Y)

def Z4hiD (X Y : Fin 5 → ℕ) : ℕ :=
  madd52lo (madd52hi (madd52hi (madd52hi (madd52hi (madd52hi 0 (X 3) (Y 0)) (X 2) (Y 1)) (X 1) (Y 2)) (X 0) (Y 3)) 19 (Z8D X Y)) 19 (Z8D X Y >>> 52)

/-- One lane of the Reduced x Reduced multiply: the five output limbs
z_i_lo + z_i_hi + z_i_hi of the source. -/
def mulLane (X Y : Fin 5 → ℕ) : Fin 5 → ℕ := fun i =>
  match i with
  | 0 => wadd (wadd (Z0loD X Y) (Z0hiD X Y)) (Z0hiD X Y)
  | 1 => wadd (wadd (Z1loD X Y) (Z1hiD X Y)) (Z1hiD X Y)
  | 2 => wadd (wadd (Z2loD X Y) (Z2hiD X Y)) (Z2hiD X Y)
  | 3 => wadd (wadd (Z3loD X Y) (Z3hiD X Y)) (Z3hiD X Y)
  | 4 => wadd (wadd (Z4loD X Y) (Z4hiD X Y)) (Z4hiD X Y)

theorem Z5loD_eq (X Y : Fin 5 → ℕ) :
    Z5loD X Y = loMul (X 4) (Y 1) + loMul (X 3) (Y 2) + loMul (X 2) (Y 3) + loMul (X 1) (Y 4) := by
  have hb0 := loMul_lt (X 4) (Y 1)
  have hb1 := loMul_lt (X 3) (Y 2)
  have hb2 := loMul_lt (X 2) (Y 3)
  have hb3 := loMul_lt (X 1) (Y 4)
  simp only [Z5loD, madd52lo, madd52hi]
  omega

theorem Z5hiD_eq (X Y : Fin 5 → ℕ) :
    Z5hiD X Y = hiMul (X 2) (Y 2) + hiMul (X 3) (Y 1) + hiMul (X 4) (Y 0) + hiMul (X 1) (Y 3) + hiMul (X 0) (Y 4) := by
  have hb0 := hiMul_lt (X 2) (Y 2)
  have hb1 := hiMul_lt (X 3) (Y 1)
  have hb2 := hiMul_lt (X 4) (Y 0)
  have hb3 := hiMul_lt (X 1) (Y 3)
  have hb4 := hiMul_lt (X 0) (Y 4)
  simp only [Z5hiD, madd52lo, madd52hi]
  omega

theorem Z6loD_eq (X Y : Fin 5 → ℕ) :
    Z6loD X Y = loMul (X 4) (Y 2) + loMul (X 3) (Y 3) + loMul (X 2) (Y 4) := by
  have hb0 := loMul_lt (X 4) (Y 2)
  have hb1 := loMul_lt (X 3) (Y 3)
  have hb2 := loMul_lt (X 2) (Y 4)
  simp only [Z6loD, madd52lo, madd52hi]
  omega

theorem Z6hiD_eq (X Y : Fin 5 → ℕ) :
    Z6hiD X Y = hiMul (X 4) (Y 1) + hiMul (X 3) (Y 2) + hiMul (X 2) (Y 3) + hiMul (X 1) (Y 4) := by
  have hb0 := hiMul_lt (X 4) (Y 1)
  have hb1 := hiMul_lt (X 3) (Y 2)
  have hb2 := hiMul_lt (X 2) (Y 3)
  have hb3 := hiMul_lt (X 1) (Y 4)
  simp only [Z6hiD, madd52lo, madd52hi]
  omega

theorem Z7loD_eq (X Y : Fin 5 → ℕ) :
    Z7loD X Y = loMul (X 4) (Y 3) + loMul (X 3) (Y 4) := by
  have hb0 := loMul_lt (X 4) (Y 3)
  have hb1 := loMul_lt (X 3) (Y 4)
  simp only [Z7loD, madd52lo, madd52hi]
  omega

theorem Z7hiD_eq (X Y : Fin 5 → ℕ) :
    Z7hiD X Y = hiMul (X 4) (Y 2) + hiMul (X 3) (Y 3) + hiMul (X 2) (Y 4) := by
  have hb0 := hiMul_lt (X 4) (Y 2)
  have hb1 := hiMul_lt (X 3) (Y 3)
  have hb2 := hiMul_lt (X 2) (Y 4)
  simp only [Z7hiD, madd52lo, madd52hi]
  omega

theorem Z8loD_eq (X Y : Fin 5 → ℕ) :
    Z8loD X Y = loMul (X 4) (Y 4) := by
  have hb0 := loMul_lt (X 4) (Y 4)
  simp only [Z8loD, madd52lo, madd52hi]
  omega

theorem Z8hiD_eq (X Y : Fin 5 → ℕ) :
    Z8hiD X Y = hiMul (X 4) (Y 3) + hiMul (X 3) (Y 4) := by
  have hb0 := hiMul_lt (X 4) (Y 3)
  have hb1 := hiMul_lt (X 3) (Y 4)
  simp only [Z8hiD, madd52lo, madd52hi]
  omega

theorem Z9hiD_eq (X Y : Fin 5 → ℕ) :
    Z9hiD X Y = hiMul (X 4) (Y 4) := by
  have hb0 := hiMul_lt (X 4) (Y 4)
  simp only [Z9hiD, madd52lo, madd52hi]
  omega

theorem Z0loD_eq (X Y : Fin 5 → ℕ) :
    Z0loD X Y = loMul (X 0) (Y 0) + loMul 19 (Z5D X Y) := by
  have hb0 := loMul_lt (X 0) (Y 0)
  have hb1 := loMul_lt 19 (Z5D X Y)
  simp only [Z0loD, madd52lo, madd52hi]
  omega

theorem Z0hiD_eq (X Y : Fin 5 → ℕ) :
    Z0hiD X Y = loMul 19 (wadd (T0D X Y) (T1D X Y)) := by
  have hb0 := loMul_lt 19 (wadd (T0D X Y) (T1D X Y))
  simp only [Z0hiD, madd52lo, madd52hi]
  omega

theorem Z1loD_eq (X Y : Fin 5 → ℕ) :
    Z1loD X Y = loMul (X 1) (Y 0) + loMul (X 0) (Y 1) + loMul 19 (Z6D X Y) := by
  have hb0 := loMul_lt (X 1) (Y 0)
  have hb1 := loMul_lt (X 0) (Y 1)
  have hb2 := loMul_lt 19 (Z6D X Y)
  simp only [Z1loD, madd52lo, madd52hi]
  omega

theorem Z1hiD_eq (X Y : Fin 5 → ℕ) :
    Z1hiD X Y = hiMul (X 0) (Y 0) + loMul 19 (Z5D X Y >>> 52) + hiMul 19 (Z5D X Y) := by
  have hb0 := hiMul_lt (X 0) (Y 0)
  have hb1 := loMul_lt 19 (Z5D X Y >>> 52)
  have hb2 := hiMul_lt 19 (Z5D X Y)
  simp only [Z1hiD, madd52lo, madd52hi]
  omega

theorem Z2loD_eq (X Y : Fin 5 → ℕ) :
    Z2loD X Y = loMul (X 2) (Y 0) + loMul (X 1) (Y 1) + loMul (X 0) (Y 2) + loMul 19 (Z7D X Y) := by
  have hb0 := loMul_lt (X 2) (Y 0)
  have hb1 := loMul_lt (X 1) (Y 1)
  have hb2 := loMul_lt (X 0) (Y 2)
  have hb3 := loMul_lt 19 (Z7D X Y)
  simp only [Z2loD, madd52lo, madd52hi]
  omega

theorem Z2hiD_eq (X Y : Fin 5 → ℕ) :
    Z2hiD X Y = hiMul (X 1) (Y 0) + hiMul (X 0) (Y 1) + loMul 19 (Z6D X Y >>> 52) + hiMul 19 (Z6D X Y) := by
  have hb0 := hiMul_lt (X 1) (Y 0)
  have hb1 := hiMul_lt (X 0) (Y 1)
  have hb2 := loMul_lt 19 (Z6D X Y >>> 52)
  have hb3 := hiMul_lt 19 (Z6D X Y)
  simp only [Z2hiD, madd52lo, madd52hi]
  omega

theorem Z3loD_eq (X Y : Fin 5 → ℕ) :
    Z3loD X Y = loMul (X 3) (Y 0) + loMul (X 2) (Y 1) + loMul (X 1) (Y 2) + loMul (X 0) (Y 3) + loMul 19 (Z8D X Y) := by
  have hb0 := loMul_lt (X 3) (Y 0)
  have hb1 := loMul_lt (X 2) (Y 1)
  have hb2 := loMul_lt (X 1) (Y 2)
  have hb3 := loMul_lt (X 0) (Y 3)
  have hb4 := loMul_lt 19 (Z8D X Y)
  simp only [Z3loD, madd52lo, madd52hi]
  omega

theorem Z3hiD_eq (X Y : Fin 5 → ℕ) :
    Z3hiD X Y = hiMul (X 2) (Y 0) + hiMul (X 1) (Y 1) + hiMul (X 0) (Y 2) + loMul 19 (Z7D X Y >>> 52) + hiMul 19 (Z7D X Y) := by
  have hb0 := hiMul_lt (X 2) (Y 0)
  have hb1 := hiMul_lt (X 1) (Y 1)
  have hb2 := hiMul_lt (X 0) (Y 2)
  have hb3 := loMul_lt 19 (Z7D X Y >>> 52)
  have hb4 := hiMul_lt 19 (Z7D X Y)
  simp only [Z3hiD, madd52lo, madd52hi]
  omega

theorem Z4loD_eq (X Y : Fin 5 → ℕ) :
    Z4loD X Y = loMul (X 2) (Y 2) + loMul (X 3) (Y 1) + loMul (X 4) (Y 0) + loMul (X 1) (Y 3) + loMul (X 0) (Y 4) + loMul 19 (Z9D X Y) := by
  have hb0 := loMul_lt (X 2) (Y 2)
  have hb1 := loMul_lt (X 3) (Y 1)
  have hb2 := loMul_lt (X 4) (Y 0)
  have hb3 := loMul_lt (X 1) (Y 3)
  have hb4 := loMul_lt (X 0) (Y 4)
  have hb5 := loMul_lt 19 (Z9D X Y)
  simp only [Z4loD, madd52lo, madd52hi]
  omega

theorem Z4hiD_eq (X Y : Fin 5 → ℕ) :
    Z4hiD X Y = hiMul (X 3) (Y 0) + hiMul (X 2) (Y 1) + hiMul (X 1) (Y 2) + hiMul (X 0) (Y 3) + hiMul 19 (Z8D X Y) + loMul 19 (Z8D X Y >>> 52) := by
  have hb0 := hiMul_lt (X 3) (Y 0)
  have hb1 := hiMul_lt (X 2) (Y 1)
  have hb2 := hiMul_lt (X 1) (Y 2)
  have hb3 := hiMul_lt (X 0) (Y 3)
  have hb4 := hiMul_lt 19 (Z8D X Y)
  have hb5 := loMul_lt 19 (Z8D X Y >>> 52)
  simp only [Z4hiD, madd52lo, madd52hi]
  omega


theorem shr52_lo19 (z : ℕ) (hz : z < 16 * 2 ^ 52) :
    loMul 19 (z >>> 52) = 19 * (z / 2 ^ 52) := by
  simp only [loMul]
  omega

theorem hiMul19_le (z : ℕ) : hiMul 19 z ≤ 18 := by
  simp only [hiMul]
  omega

theorem lo19_split (z : ℕ) : loMul 19 z + 2 ^ 52 * hiMul 19 z = 19 * (z % 2 ^ 52) := by
  simp only [loMul, hiMul]
  omega

theorem Z5D_eq (X Y : Fin 5 → ℕ) :
    Z5D X Y = loMul (X 4) (Y 1) + loMul (X 3) (Y 2) + loMul (X 2) (Y 3) + loMul (X 1) (Y 4) + 2 * (hiMul (X 2) (Y 2) + hiMul (X 3) (Y 1) + hiMul (X 4) (Y 0) + hiMul (X 1) (Y 3) + hiMul (X 0) (Y 4)) := by
  have bl0 := loMul_lt (X 4) (Y 1)
  have bl1 := loMul_lt (X 3) (Y 2)
  have bl2 := loMul_lt (X 2) (Y 3)
  have bl3 := loMul_lt (X 1) (Y 4)
  have bh0 := hiMul_lt (X 2) (Y 2)
  have bh1 := hiMul_lt (X 3) (Y 1)
  have bh2 := hiMul_lt (X 4) (Y 0)
  have bh3 := hiMul_lt (X 1) (Y 3)
  have bh4 := hiMul_lt (X 0) (Y 4)
  have el := Z5loD_eq X Y
  have eh := Z5hiD_eq X Y
  simp only [Z5D, wadd]
  omega

theorem Z5D_lt (X Y : Fin 5 → ℕ) : Z5D X Y < 16 * 2 ^ 52 := by
  rw [Z5D_eq]
  have bl0 := loMul_lt (X 4) (Y 1)
  have bl1 := loMul_lt (X 3) (Y 2)
  have bl2 := loMul_lt (X 2) (Y 3)
  have bl3 := loMul_lt (X 1) (Y 4)
  have bh0 := hiMul_lt (X 2) (Y 2)
  have bh1 := hiMul_lt (X 3) (Y 1)
  have bh2 := hiMul_lt (X 4) (Y 0)
  have bh3 := hiMul_lt (X 1) (Y 3)
  have bh4 := hiMul_lt (X 0) (Y 4)
  omega

theorem Z6D_eq (X Y : Fin 5 → ℕ) :
    Z6D X Y = loMul (X 4) (Y 2) + loMul (X 3) (Y 3) + loMul (X 2) (Y 4) + 2 * (hiMul (X 4) (Y 1) + hiMul (X 3) (Y 2) + hiMul (X 2) (Y 3) + hiMul (X 1) (Y 4)) := by
  have bl0 := loMul_lt (X 4) (Y 2)
  have bl1 := loMul_lt (X 3) (Y 3)
  have bl2 := loMul_lt (X 2) (Y 4)
  have bh0 := hiMul_lt (X 4) (Y 1)
  have bh1 := hiMul_lt (X 3) (Y 2)
  have bh2 := hiMul_lt (X 2) (Y 3)
  have bh3 := hiMul_lt (X 1) (Y 4)
  have el := Z6loD_eq X Y
  have eh := Z6hiD_eq X Y
  simp only [Z6D, wadd]
  omega

theorem Z6D_lt (X Y : Fin 5 → ℕ) : Z6D X Y < 16 * 2 ^ 52 := by
  rw [Z6D_eq]
  have bl0 := loMul_lt (X 4) (Y 2)
  have bl1 := loMul_lt (X 3) (Y 3)
  have bl2 := loMul_lt (X 2) (Y 4)
  have bh0 := hiMul_lt (X 4) (Y 1)
  have bh1 := hiMul_lt (X 3) (Y 2)
  have bh2 := hiMul_lt (X 2) (Y 3)
  have bh3 := hiMul_lt (X 1) (Y 4)
  omega

theorem Z7D_eq (X Y : Fin 5 → ℕ) :
    Z7D X Y = loMul (X 4) (Y 3) + loMul (X 3) (Y 4) + 2 * (hiMul (X 4) (Y 2) + hiMul (X 3) (Y 3) + hiMul (X 2) (Y 4)) := by
  have bl0 := loMul_lt (X 4) (Y 3)
  have bl1 := loMul_lt (X 3) (Y 4)
  have bh0 := hiMul_lt (X 4) (Y 2)
  have bh1 := hiMul_lt (X 3) (Y 3)
  have bh2 := hiMul_lt (X 2) (Y 4)
  have el := Z7loD_eq X Y
  have eh := Z7hiD_eq X Y
  simp only [Z7D, wadd]
  omega

theorem Z7D_lt (X Y : Fin 5 → ℕ) : Z7D X Y < 16 * 2 ^ 52 := by
  rw [Z7D_eq]
  have bl0 := loMul_lt (X 4) (Y 3)
  have bl1 := loMul_lt (X 3) (Y 4)
  have bh0 := hiMul_lt (X 4) (Y 2)
  have bh1 := hiMul_lt (X 3) (Y 3)
  have bh2 := hiMul_lt (X 2) (Y 4)
  omega

theorem Z8D_eq (X Y : Fin 5 → ℕ) :
    Z8D X Y = loMul (X 4) (Y 4) + 2 * (hiMul (X 4) (Y 3) + hiMul (X 3) (Y 4)) := by
  have bl0 := loMul_lt (X 4) (Y 4)
  have bh0 := hiMul_lt (X 4) (Y 3)
  have bh1 := hiMul_lt (X 3) (Y 4)
  have el := Z8loD_eq X Y
  have eh := Z8hiD_eq X Y
  simp only [Z8D, wadd]
  omega

theorem Z8D_lt (X Y : Fin 5 → ℕ) : Z8D X Y < 16 * 2 ^ 52 := by
  rw [Z8D_eq]
  have bl0 := loMul_lt (X 4) (Y 4)
  have bh0 := hiMul_lt (X 4) (Y 3)
  have bh1 := hiMul_lt (X 3) (Y 4)
  omega

theorem Z9D_eq (X Y : Fin 5 → ℕ) : Z9D X Y = 2 * hiMul (X 4) (Y 4) := by
  have b0 := hiMul_lt (X 4) (Y 4)
  have el := Z9hiD_eq X Y
  simp only [Z9D, wadd]
  omega

theorem Z9D_lt (X Y : Fin 5 → ℕ) : Z9D X Y < 16 * 2 ^ 52 := by
  rw [Z9D_eq]
  have b0 := hiMul_lt (X 4) (Y 4)
  omega

theorem T0D_eq (X Y : Fin 5 → ℕ) : T0D X Y = hiMul 19 (Z9D X Y) := by
  have b := hiMul_lt 19 (Z9D X Y)
  simp only [T0D, madd52hi]
  omega

theorem T1D_eq (X Y : Fin 5 → ℕ) : T1D X Y = 19 * (Z9D X Y / 2 ^ 52) := by
  have hz := Z9D_lt X Y
  have h := shr52_lo19 (Z9D X Y) hz
  have b := loMul_lt 19 (Z9D X Y >>> 52)
  simp only [T1D, madd52lo]
  omega

theorem lo19_small (s : ℕ) (hs : s ≤ 303) :
    (0 + 19 % 2 ^ 52 * (s % 2 ^ 64 % 2 ^ 52) % 2 ^ 52) % 2 ^ 64 = 19 * s := by
  have h1 : 19 % 2 ^ 52 * (s % 2 ^ 64 % 2 ^ 52) % 2 ^ 52 = 19 * s := by omega
  rw [h1]
  omega

theorem Z0hiD_val (X Y : Fin 5 → ℕ) :
    Z0hiD X Y = 19 * (hiMul 19 (Z9D X Y) + 19 * (Z9D X Y / 2 ^ 52)) := by
  have hz := Z9D_lt X Y
  have hb := hiMul19_le (Z9D X Y)
  have hc : Z9D X Y / 2 ^ 52 ≤ 15 := by omega
  simp only [Z0hiD, madd52lo, wadd, loMul]
  rw [T0D_eq, T1D_eq]
  exact lo19_small _ (by omega)

theorem mulLane_limb0 (X Y : Fin 5 → ℕ) :
    mulLane X Y 0 = Z0loD X Y + 2 * Z0hiD X Y := by
  have bl : Z0loD X Y < 2 * 2 ^ 52 := by
    rw [Z0loD_eq]
    have c0 := loMul_lt (X 0) (Y 0)
    have cr := loMul_lt 19 (Z5D X Y)
    omega
  have bh : Z0hiD X Y < 2 ^ 52 := by
    rw [Z0hiD_val]
    have hz := Z9D_lt X Y
    have hb := hiMul19_le (Z9D X Y)
    omega
  show wadd (wadd (Z0loD X Y) (Z0hiD X Y)) (Z0hiD X Y) = _
  simp only [wadd]
  omega

theorem mulLane_limb1 (X Y : Fin 5 → ℕ) :
    mulLane X Y 1 = Z1loD X Y + 2 * Z1hiD X Y := by
  have bl : Z1loD X Y < 3 * 2 ^ 52 := by
    rw [Z1loD_eq]
    have c0 := loMul_lt (X 1) (Y 0)
    have c1 := loMul_lt (X 0) (Y 1)
    have cr := loMul_lt 19 (Z6D X Y)
    omega
  have bh : Z1hiD X Y < 3 * 2 ^ 52 := by
    rw [Z1hiD_eq]
    have c0 := hiMul_lt (X 0) (Y 0)
    have cr1 := loMul_lt 19 (Z5D X Y >>> 52)
    have cr2 := hiMul_lt 19 (Z5D X Y)
    omega
  show wadd (wadd (Z1loD X Y) (Z1hiD X Y)) (Z1hiD X Y) = _
  simp only [wadd]
  omega

theorem mulLane_limb2 (X Y : Fin 5 → ℕ) :
    mulLane X Y 2 = Z2loD X Y + 2 * Z2hiD X Y := by
  have bl : Z2loD X Y < 4 * 2 ^ 52 := by
    rw [Z2loD_eq]
    have c0 := loMul_lt (X 2) (Y 0)
    have c1 := loMul_lt (X 1) (Y 1)
    have c2 := loMul_lt (X 0) (Y 2)
    have cr := loMul_lt 19 (Z7D X Y)
    omega
  have bh : Z2hiD X Y < 4 * 2 ^ 52 := by
    rw [Z2hiD_eq]
    have c0 := hiMul_lt (X 1) (Y 0)
    have c1 := hiMul_lt (X 0) (Y 1)
    have cr1 := loMul_lt 19 (Z6D X Y >>> 52)
    have cr2 := hiMul_lt 19 (Z6D X Y)
    omega
  show wadd (wadd (Z2loD X Y) (Z2hiD X Y)) (Z2hiD X Y) = _
  simp only [wadd]
  omega

theorem mulLane_limb3 (X Y : Fin 5 → ℕ) :
    mulLane X Y 3 = Z3loD X Y + 2 * Z3hiD X Y := by
  have bl : Z3loD X Y < 5 * 2 ^ 52 := by
    rw [Z3loD_eq]
    have c0 := loMul_lt (X 3) (Y 0)
    have c1 := loMul_lt (X 2) (Y 1)
    have c2 := loMul_lt (X 1) (Y 2)
    have c3 := loMul_lt (X 0) (Y 3)
    have cr := loMul_lt 19 (Z8D X Y)
    omega
  have bh : Z3hiD X Y < 5 * 2 ^ 52 := by
    rw [Z3hiD_eq]
    have c0 := hiMul_lt (X 2) (Y 0)
    have c1 := hiMul_lt (X 1) (Y 1)
    have c2 := hiMul_lt (X 0) (Y 2)
    have cr1 := loMul_lt 19 (Z7D X Y >>> 52)
    have cr2 := hiMul_lt 19 (Z7D X Y)
    omega
  show wadd (wadd (Z3loD X Y) (Z3hiD X Y)) (Z3hiD X Y) = _
  simp only [wadd]
  omega

theorem mulLane_limb4 (X Y : Fin 5 → ℕ) :
    mulLane X Y 4 = Z4loD X Y + 2 * Z4hiD X Y := by
  have bl : Z4loD X Y < 6 * 2 ^ 52 := by
    rw [Z4loD_eq]
    have c0 := loMul_lt (X 2) (Y 2)
    have c1 := loMul_lt (X 3) (Y 1)
    have c2 := loMul_lt (X 4) (Y 0)
    have c3 := loMul_lt (X 1) (Y 3)
    have c4 := loMul_lt (X 0) (Y 4)
    have cr := loMul_lt 19 (Z9D X Y)
    omega
  have bh : Z4hiD X Y < 6 * 2 ^ 52 := by
    rw [Z4hiD_eq]
    have c0 := hiMul_lt (X 3) (Y 0)
    have c1 := hiMul_lt (X 2) (Y 1)
    have c2 := hiMul_lt (X 1) (Y 2)
    have c3 := hiMul_lt (X 0) (Y 3)
    have cr1 := loMul_lt 19 (Z8D X Y >>> 52)
    have cr2 := hiMul_lt 19 (Z8D X Y)
    omega
  show wadd (wadd (Z4loD X Y) (Z4hiD X Y)) (Z4hiD X Y) = _
  simp only [wadd]
  omega

/-- Per-lane correctness of the Reduced x Reduced multiply: with every
input limb below 2^52 the value of the unreduced output equals the product
of the input values modulo p. -/
theorem mulLane_correct (X Y : Fin 5 → ℕ) (hX : ∀ i, X i < 2 ^ 52)
    (hY : ∀ i, Y i < 2 ^ 52) :
    laneVal (mulLane X Y) ≡ laneVal X * laneVal Y [MOD p] := by
  have s00 : loMul (X 0) (Y 0) + 2 ^ 52 * hiMul (X 0) (Y 0) = X 0 * Y 0 := by
    simp only [loMul, hiMul]
    rw [Nat.mod_eq_of_lt (hX 0), Nat.mod_eq_of_lt (hY 0)]
    exact Nat.mod_add_div _ _
  have s01 : loMul (X 0) (Y 1) + 2 ^ 52 * hiMul (X 0) (Y 1) = X 0 * Y 1 := by
    simp only [loMul, hiMul]
    rw [Nat.mod_eq_of_lt (hX 0), Nat.mod_eq_of_lt (hY 1)]
    exact Nat.mod_add_div _ _
  have s02 : loMul (X 0) (Y 2) + 2 ^ 52 * hiMul (X 0) (Y 2) = X 0 * Y 2 := by
    simp only [loMul, hiMul]
    rw [Nat.mod_eq_of_lt (hX 0), Nat.mod_eq_of_lt (hY 2)]
    exact Nat.mod_add_div _ _
  have s03 : loMul (X 0) (Y 3) + 2 ^ 52 * hiMul (X 0) (Y 3) = X 0 * Y 3 := by
    simp only [loMul, hiMul]
    rw [Nat.mod_eq_of_lt (hX 0), Nat.mod_eq_of_lt (hY 3)]
    exact Nat.mod_add_div _ _
  have s04 : loMul (X 0) (Y 4) + 2 ^ 52 * hiMul (X 0) (Y 4) = X 0 * Y 4 := by
    simp only [loMul, hiMul]
    rw [Nat.mod_eq_of_lt (hX 0), Nat.mod_eq_of_lt (hY 4)]
    exact Nat.mod_add_div _ _
  have s10 : loMul (X 1) (Y 0) + 2 ^ 52 * hiMul (X 1) (Y 0) = X 1 * Y 0 := by
    simp only [loMul, hiMul]
    rw [Nat.mod_eq_of_lt (hX 1), Nat.mod_eq_of_lt (hY 0)]
    exact Nat.mod_add_div _ _
  have s11 : loMul (X 1) (Y 1) + 2 ^ 52 * hiMul (X 1) (Y 1) = X 1 * Y 1 := by
    simp only [loMul, hiMul]
    rw [Nat.mod_eq_of_lt (hX 1), Nat.mod_eq_of_lt (hY 1)]
    exact Nat.mod_add_div _ _
  have s12 : loMul (X 1) (Y 2) + 2 ^ 52 * hiMul (X 1) (Y 2) = X 1 * Y 2 := by
    simp only [loMul, hiMul]
    rw [Nat.mod_eq_of_lt (hX 1), Nat.mod_eq_of_lt (hY 2)]
    exact Nat.mod_add_div _ _
  have s13 : loMul (X 1) (Y 3) + 2 ^ 52 * hiMul (X 1) (Y 3) = X 1 * Y 3 := by
    simp only [loMul, hiMul]
    rw [Nat.mod_eq_of_lt (hX 1), Nat.mod_eq_of_lt (hY 3)]
    exact Nat.mod_add_div _ _
  have s14 : loMul (X 1) (Y 4) + 2 ^ 52 * hiMul (X 1) (Y 4) = X 1 * Y 4 := by
    simp only [loMul, hiMul]
    rw [Nat.mod_eq_of_lt (hX 1), Nat.mod_eq_of_lt (hY 4)]
    exact Nat.mod_add_div _ _
  have s20 : loMul (X 2) (Y 0) + 2 ^ 52 * hiMul (X 2) (Y 0) = X 2 * Y 0 := by
    simp only [loMul, hiMul]
    rw [Nat.mod_eq_of_lt (hX 2), Nat.mod_eq_of_lt (hY 0)]
    exact Nat.mod_add_div _ _
  have s21 : loMul (X 2) (Y 1) + 2 ^ 52 * hiMul (X 2) (Y 1) = X 2 * Y 1 := by
    simp only [loMul, hiMul]
    rw [Nat.mod_eq_of_lt (hX 2), Nat.mod_eq_of_lt (hY 1)]
    exact Nat.mod_add_div _ _
  have s22 : loMul (X 2) (Y 2) + 2 ^ 52 * hiMul (X 2) (Y 2) = X 2 * Y 2 := by
    simp only [loMul, hiMul]
    rw [Nat.mod_eq_of_lt (hX 2), Nat.mod_eq_of_lt (hY 2)]
    exact Nat.mod_add_div _ _
  have s23 : loMul (X 2) (Y 3) + 2 ^ 52 * hiMul (X 2) (Y 3) = X 2 * Y 3 := by
    simp only [loMul, hiMul]
    rw [Nat.mod_eq_of_lt (hX 2), Nat.mod_eq_of_lt (hY 3)]
    exact Nat.mod_add_div _ _
  have s24 : loMul (X 2) (Y 4) + 2 ^ 52 * hiMul (X 2) (Y 4) = X 2 * Y 4 := by
    simp only [loMul, hiMul]
    rw [Nat.mod_eq_of_lt (hX 2), Nat.mod_eq_of_lt (hY 4)]
    exact Nat.mod_add_div _ _
  have s30 : loMul (X 3) (Y 0) + 2 ^ 52 * hiMul (X 3) (Y 0) = X 3 * Y 0 := by
    simp only [loMul, hiMul]
    rw [Nat.mod_eq_of_lt (hX 3), Nat.mod_eq_of_lt (hY 0)]
    exact Nat.mod_add_div _ _
  have s31 : loMul (X 3) (Y 1) + 2 ^ 52 * hiMul (X 3) (Y 1) = X 3 * Y 1 := by
    simp only [loMul, hiMul]
    rw [Nat.mod_eq_of_lt (hX 3), Nat.mod_eq_of_lt (hY 1)]
    exact Nat.mod_add_div _ _
  have s32 : loMul (X 3) (Y 2) + 2 ^ 52 * hiMul (X 3) (Y 2) = X 3 * Y 2 := by
    simp only [loMul, hiMul]
    rw [Nat.mod_eq_of_lt (hX 3), Nat.mod_eq_of_lt (hY 2)]
    exact Nat.mod_add_div _ _
  have s33 : loMul (X 3) (Y 3) + 2 ^ 52 * hiMul (X 3) (Y 3) = X 3 * Y 3 := by
    simp only [loMul, hiMul]
    rw [Nat.mod_eq_of_lt (hX 3), Nat.mod_eq_of_lt (hY 3)]
    exact Nat.mod_add_div _ _
  have s34 : loMul (X 3) (Y 4) + 2 ^ 52 * hiMul (X 3) (Y 4) = X 3 * Y 4 := by
    simp only [loMul, hiMul]
    rw [Nat.mod_eq_of_lt (hX 3), Nat.mod_eq_of_lt (hY 4)]
    exact Nat.mod_add_div _ _
  have s40 : loMul (X 4) (Y 0) + 2 ^ 52 * hiMul (X 4) (Y 0) = X 4 * Y 0 := by
    simp only [loMul, hiMul]
    rw [Nat.mod_eq_of_lt (hX 4), Nat.mod_eq_of_lt (hY 0)]
    exact Nat.mod_add_div _ _
  have s41 : loMul (X 4) (Y 1) + 2 ^ 52 * hiMul (X 4) (Y 1) = X 4 * Y 1 := by
    simp only [loMul, hiMul]
    rw [Nat.mod_eq_of_lt (hX 4), Nat.mod_eq_of_lt (hY 1)]
    exact Nat.mod_add_div _ _
  have s42 : loMul (X 4) (Y 2) + 2 ^ 52 * hiMul (X 4) (Y 2) = X 4 * Y 2 := by
    simp only [loMul, hiMul]
    rw [Nat.mod_eq_of_lt (hX 4), Nat.mod_eq_of_lt (hY 2)]
    exact Nat.mod_add_div _ _
  have s43 : loMul (X 4) (Y 3) + 2 ^ 52 * hiMul (X 4) (Y 3) = X 4 * Y 3 := by
    simp only [loMul, hiMul]
    rw [Nat.mod_eq_of_lt (hX 4), Nat.mod_eq_of_lt (hY 3)]
    exact Nat.mod_add_div _ _
  have s44 : loMul (X 4) (Y 4) + 2 ^ 52 * hiMul (X 4) (Y 4) = X 4 * Y 4 := by
    simp only [loMul, hiMul]
    rw [Nat.mod_eq_of_lt (hX 4), Nat.mod_eq_of_lt (hY 4)]
    exact Nat.mod_add_div _ _
  have q5 := lo19_split (Z5D X Y)
  have d5 : Z5D X Y % 2 ^ 52 + 2 ^ 52 * (Z5D X Y / 2 ^ 52) = Z5D X Y := Nat.mod_add_div _ _
  have eq5 := Z5D_eq X Y
  have q6 := lo19_split (Z6D X Y)
  have d6 : Z6D X Y % 2 ^ 52 + 2 ^ 52 * (Z6D X Y / 2 ^ 52) = Z6D X Y := Nat.mod_add_div _ _
  have eq6 := Z6D_eq X Y
  have q7 := lo19_split (Z7D X Y)
  have d7 : Z7D X Y % 2 ^ 52 + 2 ^ 52 * (Z7D X Y / 2 ^ 52) = Z7D X Y := Nat.mod_add_div _ _
  have eq7 := Z7D_eq X Y
  have q8 := lo19_split (Z8D X Y)
  have d8 : Z8D X Y % 2 ^ 52 + 2 ^ 52 * (Z8D X Y / 2 ^ 52) = Z8D X Y := Nat.mod_add_div _ _
  have eq8 := Z8D_eq X Y
  have q9 := lo19_split (Z9D X Y)
  have d9 : Z9D X Y % 2 ^ 52 + 2 ^ 52 * (Z9D X Y / 2 ^ 52) = Z9D X Y := Nat.mod_add_div _ _
  have eq9 := Z9D_eq X Y
  show laneVal (mulLane X Y) % p = laneVal X * laneVal Y % p
  rw [modp_eq_iff]
  simp only [laneVal]
  rw [mulLane_limb0, mulLane_limb1, mulLane_limb2, mulLane_limb3, mulLane_limb4,
    Z0loD_eq, Z1loD_eq, Z2loD_eq, Z3loD_eq, Z4loD_eq,
    Z1hiD_eq, Z2hiD_eq, Z3hiD_eq, Z4hiD_eq, Z0hiD_val,
    shr52_lo19 (Z5D X Y) (Z5D_lt X Y), shr52_lo19 (Z6D X Y) (Z6D_lt X Y),
    shr52_lo19 (Z7D X Y) (Z7D_lt X Y), shr52_lo19 (Z8D X Y) (Z8D_lt X Y)]
  have s00c := congrArg (fun n : ℕ => (n : ZMod p)) s00
  have s01c := congrArg (fun n : ℕ => (n : ZMod p)) s01
  have s02c := congrArg (fun n : ℕ => (n : ZMod p)) s02
  have s03c := congrArg (fun n : ℕ => (n : ZMod p)) s03
  have s04c := congrArg (fun n : ℕ => (n : ZMod p)) s04
  have s10c := congrArg (fun n : ℕ => (n : ZMod p)) s10
  have s11c := congrArg (fun n : ℕ => (n : ZMod p)) s11
  have s12c := congrArg (fun n : ℕ => (n : ZMod p)) s12
  have s13c := congrArg (fun n : ℕ => (n : ZMod p)) s13
  have s14c := congrArg (fun n : ℕ => (n : ZMod p)) s14
  have s20c := congrArg (fun n : ℕ => (n : ZMod p)) s20
  have s21c := congrArg (fun n : ℕ => (n : ZMod p)) s21
  have s22c := congrArg (fun n : ℕ => (n : ZMod p)) s22
  have s23c := congrArg (fun n : ℕ => (n : ZMod p)) s23
  have s24c := congrArg (fun n : ℕ => (n : ZMod p)) s24
  have s30c := congrArg (fun n : ℕ => (n : ZMod p)) s30
  have s31c := congrArg (fun n : ℕ => (n : ZMod p)) s31
  have s32c := congrArg (fun n : ℕ => (n : ZMod p)) s32
  have s33c := congrArg (fun n : ℕ => (n : ZMod p)) s33
  have s34c := congrArg (fun n : ℕ => (n : ZMod p)) s34
  have s40c := congrArg (fun n : ℕ => (n : ZMod p)) s40
  have s41c := congrArg (fun n : ℕ => (n : ZMod p)) s41
  have s42c := congrArg (fun n : ℕ => (n : ZMod p)) s42
  have s43c := congrArg (fun n : ℕ => (n : ZMod p)) s43
  have s44c := congrArg (fun n : ℕ => (n : ZMod p)) s44
  have eq5c := congrArg (fun n : ℕ => (n : ZMod p)) eq5
  have d5c := congrArg (fun n : ℕ => (n : ZMod p)) d5
  have q5c := congrArg (fun n : ℕ => (n : ZMod p)) q5
  have eq6c := congrArg (fun n : ℕ => (n : ZMod p)) eq6
  have d6c := congrArg (fun n : ℕ => (n : ZMod p)) d6
  have q6c := congrArg (fun n : ℕ => (n : ZMod p)) q6
  have eq7c := congrArg (fun n : ℕ => (n : ZMod p)) eq7
  have d7c := congrArg (fun n : ℕ => (n : ZMod p)) d7
  have q7c := congrArg (fun n : ℕ => (n : ZMod p)) q7
  have eq8c := congrArg (fun n : ℕ => (n : ZMod p)) eq8
  have d8c := congrArg (fun n : ℕ => (n : ZMod p)) d8
  have q8c := congrArg (fun n : ℕ => (n : ZMod p)) q8
  have eq9c := congrArg (fun n : ℕ => (n : ZMod p)) eq9
  have d9c := congrArg (fun n : ℕ => (n : ZMod p)) d9
  have q9c := congrArg (fun n : ℕ => (n : ZMod p)) q9
  simp only at s00c s01c s02c s03c s04c s10c s11c s12c s13c s14c s20c s21c s22c s23c s24c s30c s31c s32c s33c s34c s40c s41c s42c s43c s44c eq5c d5c q5c eq6c d6c q6c eq7c d7c q7c eq8c d8c q8c eq9c d9c q9c
  push_cast at s00c s01c s02c s03c s04c s10c s11c s12c s13c s14c s20c s21c s22c s23c s24c s30c s31c s32c s33c s34c s40c s41c s42c s43c s44c eq5c d5c q5c eq6c d6c q6c eq7c d7c q7c eq8c d8c q8c eq9c d9c q9c ⊢
  have h255c : (2 : ZMod p) ^ 255 = 19 := by
    have h := two_pow_255_cast
    push_cast at h
    exact h
  linear_combination
    s00c +
    (2 : ZMod p) ^ 51 * s01c +
    (2 : ZMod p) ^ 102 * s02c +
    (2 : ZMod p) ^ 153 * s03c +
    (2 : ZMod p) ^ 204 * s04c +
    (2 : ZMod p) ^ 51 * s10c +
    (2 : ZMod p) ^ 102 * s11c +
    (2 : ZMod p) ^ 153 * s12c +
    (2 : ZMod p) ^ 204 * s13c +
    (2 : ZMod p) ^ 255 * s14c +
    (2 : ZMod p) ^ 102 * s20c +
    (2 : ZMod p) ^ 153 * s21c +
    (2 : ZMod p) ^ 204 * s22c +
    (2 : ZMod p) ^ 255 * s23c +
    (2 : ZMod p) ^ 306 * s24c +
    (2 : ZMod p) ^ 153 * s30c +
    (2 : ZMod p) ^ 204 * s31c +
    (2 : ZMod p) ^ 255 * s32c +
    (2 : ZMod p) ^ 306 * s33c +
    (2 : ZMod p) ^ 357 * s34c +
    (2 : ZMod p) ^ 204 * s40c +
    (2 : ZMod p) ^ 255 * s41c +
    (2 : ZMod p) ^ 306 * s42c +
    (2 : ZMod p) ^ 357 * s43c +
    (2 : ZMod p) ^ 408 * s44c +
    (2 : ZMod p) ^ 255 * eq5c +
    (2 : ZMod p) ^ 255 * d5c +
    q5c +
    (2 : ZMod p) ^ 306 * eq6c +
    (2 : ZMod p) ^ 306 * d6c +
    (2 : ZMod p) ^ 51 * q6c +
    (2 : ZMod p) ^ 357 * eq7c +
    (2 : ZMod p) ^ 357 * d7c +
    (2 : ZMod p) ^ 102 * q7c +
    (2 : ZMod p) ^ 408 * eq8c +
    (2 : ZMod p) ^ 408 * d8c +
    (2 : ZMod p) ^ 153 * q8c +
    (2 : ZMod p) ^ 459 * eq9c +
    (2 : ZMod p) ^ 459 * d9c +
    (2 : ZMod p) ^ 204 * q9c +
    (- (2 * ((hiMul 19 (Z9D X Y) : ℕ) : ZMod p) + ((Z5D X Y % 2 ^ 52 : ℕ) : ZMod p) + (2 : ZMod p) ^ 51 * ((Z6D X Y % 2 ^ 52 : ℕ) : ZMod p) + (2 : ZMod p) ^ 102 * ((Z7D X Y % 2 ^ 52 : ℕ) : ZMod p) + (2 : ZMod p) ^ 153 * ((Z8D X Y % 2 ^ 52 : ℕ) : ZMod p) + (2 : ZMod p) ^ 204 * ((Z9D X Y % 2 ^ 52 : ℕ) : ZMod p) + (2 : ZMod p) ^ 52 * ((Z5D X Y / 2 ^ 52 : ℕ) : ZMod p) + (2 : ZMod p) ^ 103 * ((Z6D X Y / 2 ^ 52 : ℕ) : ZMod p) + (2 : ZMod p) ^ 154 * ((Z7D X Y / 2 ^ 52 : ℕ) : ZMod p) + (2 : ZMod p) ^ 205 * ((Z8D X Y / 2 ^ 52 : ℕ) : ZMod p) + (38 + (2 : ZMod p) ^ 256) * ((Z9D X Y / 2 ^ 52 : ℕ) : ZMod p))) * h255c

/-! Embedding of the multiply-by-four-small-constants operation
(Mul for a (u32, u32, u32, u32) tuple), per accumulator in program order. -/

def S1loD (c : ℕ) (X : Fin 5 → ℕ) : ℕ := madd52lo 0 c (X 1)

def S2loD (c : ℕ) (X : Fin 5 → ℕ) : ℕ := madd52lo 0 c (X 2)

def S3loD (c : ℕ) (X : Fin 5 → ℕ) : ℕ := madd52lo 0 c (X 3)

def S4loD (c : ℕ) (X : Fin 5 → ℕ) : ℕ := madd52lo 0 c (X 4)

def S1hiD (c : ℕ) (X : Fin 5 → ℕ) : ℕ := madd52hi 0 c (X 0)

def S2hiD (c : ℕ) (X : Fin 5 → ℕ) : ℕ := madd52hi 0 c (X 1)

def S3hiD (c : ℕ) (X : Fin 5 → ℕ) : ℕ := madd52hi 0 c (X 2)

def S4hiD (c : ℕ) (X : Fin 5 → ℕ) : ℕ := madd52hi 0 c (X 3)

def S5hiD (c : ℕ) (X : Fin 5 → ℕ) : ℕ := madd52hi 0 c (X 4)

def S0loD (c : ℕ) (X : Fin 5 → ℕ) : ℕ :=
  madd52lo (madd52lo 0 c (X 0)) (wadd (S5hiD c X) (S5hiD c X)) 19

/-- One lane of the multiply-by-small-constant: output limbs are
[z0lo, z1hi + z1hi + z1lo, ..., z4hi + z4hi + z4lo] as in the source. -/
def mulSmallLane (c : ℕ) (X : Fin 5 → ℕ) : Fin 5 → ℕ := fun i =>
  match i with
  | 0 => S0loD c X
  | 1 => wadd (wadd (S1hiD c X) (S1hiD c X)) (S1loD c X)
  | 2 => wadd (wadd (S2hiD c X) (S2hiD c X)) (S2loD c X)
  | 3 => wadd (wadd (S3hiD c X) (S3hiD c X)) (S3loD c X)
  | 4 => wadd (wadd (S4hiD c X) (S4hiD c X)) (S4loD c X)

theorem S5hiD_eq (c : ℕ) (X : Fin 5 → ℕ) : S5hiD c X = hiMul c (X 4) := by
  have hb := hiMul_lt c (X 4)
  simp only [S5hiD, madd52hi]
  omega

theorem hiMul_lt32 (c x : ℕ) (hc : c < 2 ^ 32) : hiMul c x < 2 ^ 32 := by
  unfold hiMul
  have h1 : c % 2 ^ 52 * (x % 2 ^ 52) < 2 ^ 32 * 2 ^ 52 := by
    have hcc : c % 2 ^ 52 < 2 ^ 32 := by omega
    exact Nat.mul_lt_mul_of_lt_of_lt hcc (Nat.mod_lt _ (by norm_num))
  exact Nat.div_lt_of_lt_mul h1

theorem lo19_doubled (h4 : ℕ) (hh : h4 < 2 ^ 32) :
    loMul ((h4 + h4) % 2 ^ 64) 19 = 38 * h4 := by
  have h1 : (h4 + h4) % 2 ^ 64 = h4 + h4 := by omega
  simp only [loMul, h1]
  omega

theorem S0loD_eq (c : ℕ) (X : Fin 5 → ℕ) (hc : c < 2 ^ 32) :
    S0loD c X = loMul c (X 0) + 38 * hiMul c (X 4) := by
  have hb := loMul_lt c (X 0)
  have hh := hiMul_lt32 c (X 4) hc
  simp only [S0loD, madd52lo, wadd]
  rw [S5hiD_eq, lo19_doubled (hiMul c (X 4)) hh]
  omega

/-- Per-lane correctness of the multiply-by-small-constant: with a constant
below 2^32 and limbs below 2^52, the value of the output is the scalar
product modulo p. -/
theorem mulSmallLane_correct (c : ℕ) (X : Fin 5 → ℕ) (hc : c < 2 ^ 32)
    (hX : ∀ i, X i < 2 ^ 52) :
    laneVal (mulSmallLane c X) ≡ c * laneVal X [MOD p] := by
  have s0 : loMul c (X 0) + 2 ^ 52 * hiMul c (X 0) = c * X 0 := by
    simp only [loMul, hiMul]
    rw [Nat.mod_eq_of_lt (by omega : c < 2 ^ 52), Nat.mod_eq_of_lt (hX 0)]
    exact Nat.mod_add_div _ _
  have s1 : loMul c (X 1) + 2 ^ 52 * hiMul c (X 1) = c * X 1 := by
    simp only [loMul, hiMul]
    rw [Nat.mod_eq_of_lt (by omega : c < 2 ^ 52), Nat.mod_eq_of_lt (hX 1)]
    exact Nat.mod_add_div _ _
  have s2 : loMul c (X 2) + 2 ^ 52 * hiMul c (X 2) = c * X 2 := by
    simp only [loMul, hiMul]
    rw [Nat.mod_eq_of_lt (by omega : c < 2 ^ 52), Nat.mod_eq_of_lt (hX 2)]
    exact Nat.mod_add_div _ _
  have s3 : loMul c (X 3) + 2 ^ 52 * hiMul c (X 3) = c * X 3 := by
    simp only [loMul, hiMul]
    rw [Nat.mod_eq_of_lt (by omega : c < 2 ^ 52), Nat.mod_eq_of_lt (hX 3)]
    exact Nat.mod_add_div _ _
  have s4 : loMul c (X 4) + 2 ^ 52 * hiMul c (X 4) = c * X 4 := by
    simp only [loMul, hiMul]
    rw [Nat.mod_eq_of_lt (by omega : c < 2 ^ 52), Nat.mod_eq_of_lt (hX 4)]
    exact Nat.mod_add_div _ _
  have ho0 : mulSmallLane c X 0 = loMul c (X 0) + 38 * hiMul c (X 4) :=
    S0loD_eq c X hc
  have ho1 : mulSmallLane c X 1 = loMul c (X 1) + 2 * hiMul c (X 0) := by
    have b1 := loMul_lt c (X 1)
    have b2 := hiMul_lt c (X 0)
    show wadd (wadd (S1hiD c X) (S1hiD c X)) (S1loD c X) = _
    simp only [S1hiD, S1loD, madd52lo, madd52hi, wadd]
    omega
  have ho2 : mulSmallLane c X 2 = loMul c (X 2) + 2 * hiMul c (X 1) := by
    have b1 := loMul_lt c (X 2)
    have b2 := hiMul_lt c (X 1)
    show wadd (wadd (S2hiD c X) (S2hiD c X)) (S2loD c X) = _
    simp only [S2hiD, S2loD, madd52lo, madd52hi, wadd]
    omega
  have ho3 : mulSmallLane c X 3 = loMul c (X 3) + 2 * hiMul c (X 2) := by
    have b1 := loMul_lt c (X 3)
    have b2 := hiMul_lt c (X 2)
    show wadd (wadd (S3hiD c X) (S3hiD c X)) (S3loD c X) = _
    simp only [S3hiD, S3loD, madd52lo, madd52hi, wadd]
    omega
  have ho4 : mulSmallLane c X 4 = loMul c (X 4) + 2 * hiMul c (X 3) := by
    have b1 := loMul_lt c (X 4)
    have b2 := hiMul_lt c (X 3)
    show wadd (wadd (S4hiD c X) (S4hiD c X)) (S4loD c X) = _
    simp only [S4hiD, S4loD, madd52lo, madd52hi, wadd]
    omega
  show laneVal (mulSmallLane c X) % p = c * laneVal X % p
  rw [modp_eq_iff]
  simp only [laneVal]
  rw [ho0, ho1, ho2, ho3, ho4]
  have s0c := congrArg (fun n : ℕ => (n : ZMod p)) s0
  have s1c := congrArg (fun n : ℕ => (n : ZMod p)) s1
  have s2c := congrArg (fun n : ℕ => (n : ZMod p)) s2
  have s3c := congrArg (fun n : ℕ => (n : ZMod p)) s3
  have s4c := congrArg (fun n : ℕ => (n : ZMod p)) s4
  simp only at s0c s1c s2c s3c s4c
  push_cast at s0c s1c s2c s3c s4c ⊢
  have h255c : (2 : ZMod p) ^ 255 = 19 := by
    have h := two_pow_255_cast
    push_cast at h
    exact h
  linear_combination s0c + (2 : ZMod p) ^ 51 * s1c + (2 : ZMod p) ^ 102 * s2c +
    (2 : ZMod p) ^ 153 * s3c + (2 : ZMod p) ^ 204 * s4c -
    2 * ((hiMul c (X 4) : ℕ) : ZMod p) * h255c

/-- Vector form of the Reduced x Reduced multiply, lane-parallel. -/
def F51x4Reduced.mulVec (x y : F51x4Reduced) : F51x4Unreduced :=
  ⟨fun i j => mulLane (lane x.limbs j) (lane y.limbs j) i⟩

/-- Vector form of the multiply-by-four-small-constants, lane-parallel. -/
def F51x4Reduced.mulSmall (x : F51x4Reduced) (s : Fin 4 → ℕ) : F51x4Unreduced :=
  ⟨fun i j => mulSmallLane (s j) (lane x.limbs j) i⟩

/-- C6: for every four field elements per operand in the Reduced
representation (coefficients below 2^52), the 4-lane batched multiply and the
multiply-by-four-per-lane-small-constants produce, in each lane, a result
whose field value mod p equals the corresponding scalar computation (product
of the lane values, resp. scalar times lane value, mod p). -/
theorem c6_batched_mul_matches_scalar :
    (∀ (x y : F51x4Reduced) (j : Fin 4),
        (∀ i, x.limbs i j < 2 ^ 52) → (∀ i, y.limbs i j < 2 ^ 52) →
        laneVal (lane (x.mulVec y).limbs j) ≡
          laneVal (lane x.limbs j) * laneVal (lane y.limbs j) [MOD p]) ∧
      ∀ (x : F51x4Reduced) (s : Fin 4 → ℕ) (j : Fin 4),
        (∀ i, x.limbs i j < 2 ^ 52) → s j < 2 ^ 32 →
        laneVal (lane (x.mulSmall s).limbs j) ≡
          s j * laneVal (lane x.limbs j) [MOD p] := by
  constructor
  · intro x y j hx hy
    exact mulLane_correct (lane x.limbs j) (lane y.limbs j) hx hy
  · intro x s j hx hs
    exact mulSmallLane_correct (s j) (lane x.limbs j) hs hx

/-- Witness for C6, at the batches with all limbs 1 and all limbs 2 and the
four small constants all 121665. -/
theorem c6_batched_mul_matches_scalar_witness :
    (laneVal (lane ((F51x4Reduced.mk fun _ _ => 1).mulVec
          (F51x4Reduced.mk fun _ _ => 2)).limbs 0) ≡
        laneVal (lane (F51x4Reduced.mk fun _ _ => (1 : ℕ)).limbs 0) *
          laneVal (lane (F51x4Reduced.mk fun _ _ => (2 : ℕ)).limbs 0) [MOD p]) ∧
      laneVal (lane ((F51x4Reduced.mk fun _ _ => 1).mulSmall fun _ => 121665).limbs 0) ≡
        121665 * laneVal (lane (F51x4Reduced.mk fun _ _ => (1 : ℕ)).limbs 0) [MOD p] :=
  ⟨c6_batched_mul_matches_scalar.1 (F51x4Reduced.mk fun _ _ => 1)
      (F51x4Reduced.mk fun _ _ => 2) 0 (by decide) (by decide),
    c6_batched_mul_matches_scalar.2 (F51x4Reduced.mk fun _ _ => 1)
      (fun _ => 121665) 0 (by decide) (by decide)⟩

/-- C9: packing any four FieldElement51 values into a 4-lane batch and
immediately unpacking returns the original four values limb-for-limb, with no
bound assumed on the limbs. -/
theorem c9_pack_split_roundtrip (a b c d : FieldElement51) :
    (F51x4Unreduced.pack a b c d).split = (a, b, c, d) := rfl

/-- C7: the Unreduced to Reduced conversion preserves every lane's value mod
p and bounds every output coefficient by 2^52 (the canonical 2^51 bound plus
one bit of headroom, which is the precondition of the batched multiply); the
Reduced to Unreduced direction leaves every coefficient unchanged. -/
theorem c7_unreduced_to_reduced :
    (∀ (x : F51x4Unreduced) (j : Fin 4), (∀ i, x.limbs i j < 2 ^ 64) →
      laneVal (lane x.toReduced.limbs j) ≡ laneVal (lane x.limbs j) [MOD p] ∧
        ∀ i, x.toReduced.limbs i j < 2 ^ 52) ∧
      ∀ y : F51x4Reduced, y.toUnreduced.limbs = y.limbs := by
  constructor
  · intro x j h
    exact reduceLane_correct (lane x.limbs j) h
  · intro y
    rfl

/-- Witness for C7, at the batch whose limbs are all 2^60 in every lane. -/
theorem c7_unreduced_to_reduced_witness :
    laneVal (lane (F51x4Unreduced.mk fun _ _ => 2 ^ 60).toReduced.limbs 0) ≡
        laneVal (lane (F51x4Unreduced.mk fun _ _ => 2 ^ 60).limbs 0) [MOD p] ∧
      ∀ i, (F51x4Unreduced.mk fun _ _ => 2 ^ 60).toReduced.limbs i 0 < 2 ^ 52 :=
  c7_unreduced_to_reduced.1 (F51x4Unreduced.mk fun _ _ => 2 ^ 60) 0 (by decide)

/-- C1: for every starting u-coordinate and every finite most-significant-first
bit sequence, mul_bits_be computes the ladder exactly as the specification
describes it: initialize (x0, x1) = (identity, (u : 1)); per bit b swap keyed
on prev XOR b, differential add-and-double, set prev = b; one final swap keyed
on the last bit; return the affine value of x0. -/
theorem c1_mul_bits_be_matches_spec (b : Bytes32) (bits : List Bool) :
    mulBitsBe b bits = mulBitsSpec b bits :=
  congrArg asAffine
    (foldl_ladder_eq_spec (feFromBytes b) bits projIdentity ⟨feFromBytes b, 1⟩ false)

/-- C2: differential_add_and_double updates P and Q so that, as field-element
equations, the new P is (U = t14, W = t16) and the new Q is (U = t11,
W = d * t12), where t0..t16 is exactly the fixed sequence of the spec, and the
ladder constant is (A+2)/4. -/
theorem c2_diff_add_and_double_formulas (P Q : ProjectivePoint) (d : ℕ) :
    let UP : ZMod p := (P.U : ℕ)
    let WP : ZMod p := (P.W : ℕ)
    let UQ : ZMod p := (Q.U : ℕ)
    let WQ : ZMod p := (Q.W : ℕ)
    let t0 := UP + WP
    let t1 := UP - WP
    let t2 := UQ + WQ
    let t3 := UQ - WQ
    let t4 := t0 ^ 2
    let t5 := t1 ^ 2
    let t6 := t4 - t5
    let t7 := t0 * t3
    let t8 := t1 * t2
    let t9 := t7 + t8
    let t10 := t7 - t8
    let t11 := t9 ^ 2
    let t12 := t10 ^ 2
    let t13 := (((montA + 2) / 4 : ℕ) : ZMod p) * t6
    let t14 := t4 * t5
    let t15 := t13 + t5
    let t16 := t6 * t15
    let R := diffAddAndDouble P Q d
    ((R.1.U : ZMod p) = t14 ∧ (R.1.W : ZMod p) = t16) ∧
      ((R.2.U : ZMod p) = t11 ∧ (R.2.W : ZMod p) = (d : ZMod p) * t12) := by
  refine ⟨⟨?_, ?_⟩, ?_, ?_⟩ <;>
    simp only [diffAddAndDouble, aplus2Over4, cast_fadd, cast_fsub, cast_fmul, cast_fsq] <;>
    ring

/-- C8: as_affine is total, returning the encoding of U times the fixed
inversion W^(p-2) mod p, hence the zero u-coordinate whenever W reduces to 0;
the affine value of the identity (1 : 0) is the 32-byte zero string. -/
theorem c8_as_affine_total :
    (∀ P : ProjectivePoint, asAffine P = feToBytes (P.U * (P.W ^ (p - 2) % p) % p)) ∧
      (∀ P : ProjectivePoint, P.W % p = 0 → asAffine P = zeroBytes) ∧
      asAffine projIdentity = zeroBytes := by
  have h1 : ∀ P : ProjectivePoint, asAffine P = feToBytes (P.U * (P.W ^ (p - 2) % p) % p) := by
    intro P
    show feToBytes ((P.U * finv P.W) % p) = _
    rw [finv_eq]
  refine ⟨h1, ?_, asAffine_identity⟩
  intro P hW
  rw [h1 P]
  have hd : p ∣ P.W ^ (p - 2) := by
    have h2 : p - 2 ≠ 0 := by rw [p_eq_lit]; omega
    exact dvd_pow (Nat.dvd_of_mod_eq_zero hW) h2
  rw [Nat.mod_eq_zero_of_dvd hd, Nat.mul_zero, Nat.zero_mod, feToBytes_zero]

/-- Witness for C8: the identity projective point has W = 0 and its affine
value is the zero string. -/
theorem c8_as_affine_total_witness : asAffine ⟨5, 0⟩ = zeroBytes :=
  c8_as_affine_total.2.1 ⟨5, 0⟩ (by decide)

/-- C10: mul_bits_be with an empty bit sequence returns the identity, 32 zero
bytes: the loop body never runs, inversion of 0 yields 0, and the untouched
identity state (1 : 0) dehomogenizes to the zero u-coordinate. -/
theorem c10_mul_bits_be_empty :
    (∀ b : Bytes32, mulBitsBe b [] = zeroBytes) ∧ finv 0 = 0 ∧
      asAffine projIdentity = zeroBytes := by
  refine ⟨?_, finv_zero, asAffine_identity⟩
  intro b
  show asAffine (condSwap projIdentity ⟨feFromBytes b, 1⟩ false).1 = zeroBytes
  exact asAffine_identity


/-! Byte strings used by the equality-mod-p claims. -/

def bytesTop : Bytes32 := fun i => if (i : ℕ) = 31 then 128 else 0

def bytes19 : Bytes32 := fun i => if (i : ℕ) = 0 then 19 else 0

def bytes18 : Bytes32 := fun i => if (i : ℕ) = 0 then 18 else 0

def bytes255 : Bytes32 := fun _ => 255

set_option maxHeartbeats 1000000 in
/-- Counterexample for C4 as stated: the byte strings encoding 2^255 and 19
have little-endian values in the same residue class mod p, yet they compare
unequal, because decoding discards bit 255 before reducing. -/
theorem c4_counterexample_raw_residue :
    leVal bytesTop % p = leVal bytes19 % p ∧ montCtEq bytesTop bytes19 = false ∧
      montEq bytesTop bytes19 = false := by
  refine ⟨by decide, by decide, by decide⟩

set_option maxHeartbeats 1000000 in
/-- C4 (amended): any two 32-byte strings whose little-endian values agree
modulo p after discarding bit 255 compare equal, through ct_eq as well as the
derived equality, and hash identically; in particular [18,0,...,0] and
[255,...,255] compare equal as MontgomeryPoints. -/
theorem c4_eq_and_hash_mod_p :
    (∀ a b : Bytes32, leVal a % 2 ^ 255 % p = leVal b % 2 ^ 255 % p →
      montCtEq a b = true ∧ montEq a b = true ∧ montHashBytes a = montHashBytes b) ∧
      montCtEq bytes18 bytes255 = true ∧ montEq bytes18 bytes255 = true := by
  refine ⟨?_, by decide, by decide⟩
  intro a b h
  have he : feFromBytes a = feFromBytes b := h
  refine ⟨?_, ?_, ?_⟩
  · show (feFromBytes a == feFromBytes b) = true
    rw [he, beq_self_eq_true]
  · show (feFromBytes a == feFromBytes b) = true
    rw [he, beq_self_eq_true]
  · show feToBytes (feFromBytes a) = feToBytes (feFromBytes b)
    rw [he]

set_option maxHeartbeats 1000000 in
/-- Witness for C4, at the pair [18,0,...,0] and [255,...,255]. -/
theorem c4_eq_and_hash_mod_p_witness :
    montCtEq bytes18 bytes255 = true ∧ montEq bytes18 bytes255 = true ∧
      montHashBytes bytes18 = montHashBytes bytes255 :=
  c4_eq_and_hash_mod_p.1 bytes18 bytes255 (by decide)

theorem isSqRatio_false_of (u v r2 : ℕ) (h1 : (u * finv v) % p = r2)
    (h2 : powMod r2 ((p - 1) / 2) p = p - 1) : isSqRatio u v = false := by
  unfold isSqRatio
  rw [h1, h2]
  simp

theorem mod_p_add_left (x : ℕ) : (1 + x % p) % p = (1 + x) % p := by
  rw [Nat.add_mod 1 (x % p), Nat.mod_mod_of_dvd x dvd_rfl, ← Nat.add_mod]

/-- The Elligator2 encoding agrees with the specification's formula for every
field element: d = -A/(1+2r^2), eps = d^3 + A d^2 + d, u = d when eps is a
square and u = -d-A otherwise. -/
theorem elligator_eq_spec (r : ℕ) : elligatorEncode r = feToBytes (elligatorSpecU r) := by
  simp only [elligatorEncode, elligatorSpecU]
  have harg : fadd 1 (fsq2 r) = (1 + 2 * r ^ 2) % p := by
    show (1 + 2 * (r * r) % p) % p = (1 + 2 * r ^ 2) % p
    rw [mod_p_add_left, pow_two]
  rw [← harg]
  set d := fmul montAneg (finv (fadd 1 (fsq2 r))) with hd
  have hdlt : d < p := by
    rw [hd]
    exact fmul_lt _ _
  have heps : fmul d (fadd (fadd (fsq d) (fmul montA d)) 1) =
      (d ^ 3 + montA * d ^ 2 + d) % p := by
    have h1 : fmul d (fadd (fadd (fsq d) (fmul montA d)) 1) % p =
        (d ^ 3 + montA * d ^ 2 + d) % p % p := by
      rw [modp_eq_iff]
      push_cast [cast_fmul, cast_fadd, cast_fsq, cast_mod_p]
      ring
    rw [Nat.mod_eq_of_lt (fmul_lt _ _), Nat.mod_mod_of_dvd _ dvd_rfl] at h1
    exact h1
  rw [heps]
  have hd0 : fadd d 0 = d := by
    show (d + 0) % p = d
    rw [Nat.add_zero, Nat.mod_eq_of_lt hdlt]
  by_cases hsq : isSqRatio ((d ^ 3 + montA * d ^ 2 + d) % p) 1 = true
  · simp [hsq, hd0]
  · have hf : isSqRatio ((d ^ 3 + montA * d ^ 2 + d) % p) 1 = false :=
      Bool.eq_false_iff.mpr hsq
    simp only [hf, Bool.not_false, if_true, if_false, Bool.false_eq_true]
    rfl

theorem elligatorSpecU_zero : elligatorSpecU 0 = 0 := by
  have hdz : fmul montAneg (finv ((1 + 2 * 0 ^ 2) % p)) = p - 486662 := by decide
  simp only [elligatorSpecU]
  rw [hdz]
  rw [show ((p - 486662) ^ 3 + montA * (p - 486662) ^ 2 + (p - 486662)) % p = p - 486662
    from by decide]
  rw [isSqRatio_false_of (p - 486662) 1 (p - 486662) (by decide) (by decide)]
  simp only [Bool.false_eq_true, if_false]
  decide

/-- C5: elligator_encode is total on field elements and matches the spec's
formula: d = -A/(1+2r^2), eps = d^3 + A d^2 + d, u = d when eps is a square
and u = -d-A otherwise, selected without a value-dependent branch; the zero
field element encodes to 32 zero bytes. -/
theorem c5_elligator_total :
    (∀ r : ℕ, elligatorEncode r = feToBytes (elligatorSpecU r)) ∧
      elligatorEncode 0 = zeroBytes := by
  refine ⟨elligator_eq_spec, ?_⟩
  rw [elligator_eq_spec 0, elligatorSpecU_zero, feToBytes_zero]

theorem one_mod_p : (1 : ℕ) % p = 1 := Nat.mod_eq_of_lt (by rw [p_eq_lit]; norm_num)

/-- The value y = (u-1)/(u+1) computed by the birational map at u = 2. -/
def yTwo : ℕ := 38597363079105398474523661669562635951089994888546854679819194669304376546633

/-- The numerator candidate y^2 - 1 of the decompression of yTwo. -/
def uTwo : ℕ := 32164469232587832062103051391302196625908329073789045566515995557753647122193

/-- The denominator candidate d y^2 + 1 of the decompression of yTwo. -/
def vTwo : ℕ := 42719108182957558401539004281646476527705785319640545681640170839647258800362

/-- The candidate x^2 ratio of the decompression of yTwo, a non-square. -/
def rTwo : ℕ := 4844254998816962689540546423207128943846483332547251512784179676966598795408

/-- For u away from the exceptional point, to_edwards applies the birational
map with the fixed-exponent inversion and hands the sign-adjusted encoding to
decompression unchanged. -/
theorem toEdwards_y_formula (b : Bytes32) (s : ℕ) (h : feFromBytes b ≠ p - 1) :
    toEdwards b s = decompress (setSignBit (feToBytes
      (((feFromBytes b + (p - 1)) * (((feFromBytes b + 1) % p) ^ (p - 2) % p)) % p)) s) := by
  simp only [toEdwards]
  rw [if_neg h]
  have hxy : fmul (fsub (feFromBytes b) 1) (finv (fadd (feFromBytes b) 1)) =
      ((feFromBytes b + (p - 1)) * (((feFromBytes b + 1) % p) ^ (p - 2) % p)) % p := by
    unfold fmul fsub fadd
    rw [one_mod_p, finv_eq, Nat.mod_mul_mod]
  rw [hxy]

/-- C3: to_edwards rejects u = -1 before the division (where u+1 would reduce
to zero); on u = 2 and u = -1 it returns none; elsewhere it applies the
birational map y = (u-1)/(u+1), writes the sign bit into the top bit of the
encoding, and propagates the decompression result unchanged. -/
theorem c3_to_edwards :
    (∀ (b : Bytes32) (s : ℕ), feFromBytes b = p - 1 → toEdwards b s = none) ∧
      (∀ (b : Bytes32) (s : ℕ), feFromBytes b ≠ p - 1 →
        (feFromBytes b + 1) % p ≠ 0 ∧
          toEdwards b s = decompress (setSignBit (feToBytes
            (((feFromBytes b + (p - 1)) * (((feFromBytes b + 1) % p) ^ (p - 2) % p)) % p)) s)) ∧
      toEdwards (feToBytes 2) 0 = none ∧ toEdwards (feToBytes (p - 1)) 0 = none := by
  refine ⟨?_, ?_, ?_, ?_⟩
  · intro b s h
    simp only [toEdwards]
    rw [if_pos h]
  · intro b s h
    refine ⟨?_, toEdwards_y_formula b s h⟩
    have hu : feFromBytes b < p := Nat.mod_lt _ p_pos
    rw [p_eq_lit] at hu h ⊢
    omega
  · have h2 : feFromBytes (feToBytes 2) = 2 := by decide
    simp only [toEdwards]
    rw [h2, if_neg (show ¬(2 : ℕ) = p - 1 from by decide)]
    rw [show fmul (fsub 2 1) (finv (fadd 2 1)) = yTwo from by decide]
    simp only [decompress]
    rw [show feFromBytes (setSignBit (feToBytes yTwo) 0) = yTwo from by decide]
    rw [show fsub (fsq yTwo) 1 = uTwo from by decide]
    rw [show fadd (fmul edD (fsq yTwo)) 1 = vTwo from by decide]
    rw [isSqRatio_false_of uTwo vTwo rTwo (by decide) (by decide)]
    simp
  · have h3 : feFromBytes (feToBytes (p - 1)) = p - 1 := by decide
    simp only [toEdwards]
    rw [h3, if_pos rfl]

/-- Witness for C3, at u = -1 (rejected) and u = 9 (denominator nonzero). -/
theorem c3_to_edwards_witness :
    toEdwards (feToBytes (p - 1)) 7 = none ∧ (feFromBytes (feToBytes 9) + 1) % p ≠ 0 :=
  ⟨c3_to_edwards.1 (feToBytes (p - 1)) 7 (by decide),
    (c3_to_edwards.2.1 (feToBytes 9) 0 (by decide)).1⟩

end Curve25519
